import Mathlib

/-!
Shallow embedding of the `kineuron` simulation engine
(`src/kineuron/*.py` of the kinetic-neurotransmission repository):
the kinetic-model registries (`kinetic_model.py`), the vesicle pools
(`transition_state.py`), the stimulation protocol (`stimulation.py`)
and the Gillespie solver (`solver.py`).

Numbers are embedded in an abstract linearly ordered field `F`
(instantiated with `ℚ` or `ℝ` in the theorems); Python `None`-able
arguments become `Option`; Python runtime errors become an explicit
`Except PyErr` result.  Transcendental functions (`math.exp`) and the
random draws of the SSA loop are passed as explicit parameters, so every
definition stays executable.  Loops of the source that are driven by the
random stream are unrolled along an explicit list of draws (a finite run
of the source corresponds to a sufficiently long list), and the inner
snapshot loop carries explicit fuel; all invariants proved below are
uniform in those parameters.
-/

namespace KiNeuron

/-- Python runtime errors that the embedded code can raise. -/
inductive PyErr where
  | typeError
  | valueError
  | keyError
  | zeroDivisionError
  | assertionError
  | nameError
  deriving DecidableEq, Repr

/-- A Python `dict` keyed by strings, with insertion order, embedded as an
association list whose keys are unique (uniqueness is proved where needed). -/
abbrev PyDict (α : Type) := List (String × α)

namespace PyDict

/-- `list(d.keys())` of a Python dict. -/
def keys (d : PyDict α) : List String := d.map Prod.fst

/-- `d[k]` as an optional value: first entry with the given key. -/
def lookup (k : String) : PyDict α → Option α
  | [] => none
  | (k', v) :: rest => if k' = k then some v else lookup k rest

/-- `d[k] = v` on a Python dict: overwrite in place if the key exists,
append otherwise (insertion order is preserved, first occurrence wins
the position). -/
def insertItem (d : PyDict α) (k : String) (v : α) : PyDict α :=
  if k ∈ d.keys then d.map (fun p => if p.1 = k then (k, v) else p) else d ++ [(k, v)]

end PyDict

/-- `KineticModel.__dict_items` (kinetic_model.py:100): builds
`{item.get_name(): item for item in list_items}`; a later duplicate name
overwrites the earlier entry. -/
def dictItems (l : List (String × α)) : PyDict α :=
  l.foldl (fun d p => d.insertItem p.1 p.2) []

/-- Value of the last occurrence of a key in a list of pairs. -/
def lastVal (k : String) : List (String × α) → Option α
  | [] => none
  | (k', v) :: rest =>
    match lastVal k rest with
    | some w => some w
    | none => if k' = k then some v else none

/-- `RateConstant` (rate_constant.py): a named scalar rate with a
calcium-dependence flag (the name plays no role in the solver). -/
structure RateConstant (F : Type) where
  rate : F
  calciumDependent : Bool
  deriving DecidableEq, Repr

/-- `Transition` (transition.py): origin/destination pool names and a
rate constant. -/
structure Transition (F : Type) where
  origin : String
  destination : String
  rateConstant : RateConstant F
  deriving DecidableEq, Repr

/-- `TransitionState.add_vesicle` / `pop_vesicle`
(transition_state.py:57/68) as seen through the solver's
`get_transition_states()[name]` access: adjust the named pool's count by
`δ`, raising `KeyError` if the pool is not in the registry. -/
def adjustVesicles (pools : PyDict ℤ) (name : String) (δ : ℤ) :
    Except PyErr (PyDict ℤ) :=
  if name ∈ pools.keys then
    .ok (pools.map (fun p => if p.1 = name then (p.1, p.2 + δ) else p))
  else .error .keyError

/-- Total number of vesicles currently held across all pools,
`sum(pools[*].count)`. -/
def sumCounts (d : PyDict ℤ) : ℤ := (d.map Prod.snd).sum

/-- `KineticModel` (kinetic_model.py): total vesicles, the two
registries, the recorded resting state, and the two flags
(`_init_flag`, `_init_resting_state`), each of which is Python `None`
before it is first assigned. -/
structure KineticModel (F : Type) where
  vesicles : ℤ
  transitionStates : PyDict ℤ
  transitions : PyDict (Transition F)
  restingState : PyDict ℤ
  initFlag : Option Bool
  initRestingFlag : Option Bool

namespace KineticModel

/-- A freshly constructed model (kinetic_model.py:81): registries not yet
populated, both flags `None`. -/
def fresh (F : Type) (vesicles : ℤ) : KineticModel F :=
  ⟨vesicles, [], [], [], none, none⟩

/-- `KineticModel.add_transition_states` (kinetic_model.py:115): the
registry is replaced wholesale by the dict built from the new list. -/
def addTransitionStates (m : KineticModel F) (l : List (String × ℤ)) :
    KineticModel F :=
  ⟨m.vesicles, dictItems l, m.transitions, m.restingState, m.initFlag,
    m.initRestingFlag⟩

/-- `KineticModel.add_transitions` (kinetic_model.py:125): the registry is
replaced wholesale by the dict built from the new list. -/
def addTransitions (m : KineticModel F) (l : List (String × Transition F)) :
    KineticModel F :=
  ⟨m.vesicles, m.transitionStates, dictItems l, m.restingState, m.initFlag,
    m.initRestingFlag⟩

/-- `KineticModel.get_current_state` (kinetic_model.py:167): the name and
count of every pool, in declaration order. -/
def currentState (m : KineticModel F) : PyDict ℤ := m.transitionStates

/-- `KineticModel.set_resting_state` (kinetic_model.py:245).  The method
takes no mapping: it snapshots the current live counts into
`__resting_state` and touches nothing else (in particular it never
assigns `_init_resting_state`). -/
def setRestingState (m : KineticModel F) : KineticModel F :=
  ⟨m.vesicles, m.transitionStates, m.transitions, m.currentState, m.initFlag,
    m.initRestingFlag⟩

/-- `KineticModel.init` (kinetic_model.py:217): the whole total goes to
the first-declared pool, zero to the others; the result is snapshotted as
the resting state; `_init_flag` becomes `True` and
`_init_resting_state` becomes `False`. -/
def init (m : KineticModel F) : KineticModel F :=
  let seeded : PyDict ℤ :=
    m.transitionStates.enum.map
      (fun p => (p.2.1, if p.1 = 0 then m.vesicles else 0))
  ⟨m.vesicles, seeded, m.transitions, seeded, some true, some false⟩

/-- The per-pool update loop of `KineticModel.set_initial_state`
(kinetic_model.py:233): every declared pool takes its count from the
mapping; a pool name absent from the mapping raises `KeyError`. -/
def setCounts (d : PyDict ℤ) : List (String × ℤ) → Except PyErr (PyDict ℤ)
  | [] => .ok []
  | (n, _) :: rest =>
    match d.lookup n with
    | none => .error .keyError
    | some v =>
      match setCounts d rest with
      | .error e => .error e
      | .ok rest' => .ok ((n, v) :: rest')

/-- `KineticModel.set_initial_state` (kinetic_model.py:233). -/
def setInitialState (m : KineticModel F) (d : PyDict ℤ) :
    Except PyErr (KineticModel F) :=
  match setCounts d m.transitionStates with
  | .error e => .error e
  | .ok ts =>
    .ok ⟨m.vesicles, ts, m.transitions, m.restingState, m.initFlag,
      m.initRestingFlag⟩

end KineticModel

/-- Python's float modulo `x % y` (for `y ≠ 0`): `x - y * ⌊x / y⌋`, the
remainder with the sign of the divisor. -/
def pymod {F : Type} [LinearOrderedField F] [FloorRing F] (x y : F) : F :=
  x - y * (⌊x / y⌋ : ℤ)

/-- `Stimulation` in its `exponential_decay` mode (stimulation.py:85-93):
the fields stored by `__init__`.  `time_start_stimulation`,
`conditional_stimuli` and `period` must have been non-`None` for the
construction to have computed `__time_end_stimulation`; the remaining
parameters are stored unexamined and may still be `None`. -/
structure Stimulation (F : Type) where
  timeStartStimulation : F
  conditionalStimuli : ℤ
  period : F
  tauStimulus : Option F
  timeWaitTest : Option F
  intensityStimulus : Option F
  timeEndStimulation : F

namespace Stimulation

variable {F : Type} [LinearOrderedField F]

/-- `Stimulation.__init__` for `type_stimulus='exponential_decay'`
(stimulation.py:85-93): stores the parameters and computes
`__time_end_stimulation = time_start + (N - 1) * period + 0.005`.
A `None` among `time_start_stimulation`, `conditional_stimuli`, `period`
makes that arithmetic raise `TypeError`; no other parameter is examined
or validated. -/
def init (timeStart : Option F) (conditional : Option ℤ) (period : Option F)
    (tau : Option F) (intensity : Option F) (timeWait : Option F) :
    Except PyErr (Stimulation F) :=
  match timeStart, conditional, period with
  | some ts, some n, some p =>
    .ok ⟨ts, n, p, tau, timeWait, intensity, ts + ((n : F) - 1) * p + 1 / 200⟩
  | _, _, _ => .error .typeError

/-- Conditioning-phase branch formula (stimulation.py:212):
`exp(-((t - start) % period) / τ)`. -/
def branchConditioning [FloorRing F] (ex : F → F) (start p tau t : F) : F :=
  ex (-(pymod (t - start) p) / tau)

/-- Inter-phase decay branch formula (stimulation.py:215-216):
`exp(-((t - start) - (N - 1) * period) / τ)`. -/
def branchInterphase (ex : F → F) (start : F) (n : ℤ) (p tau t : F) : F :=
  ex (-((t - start) - ((n : F) - 1) * p) / tau)

/-- Test-phase branch formula (stimulation.py:219):
`exp(-(t - time_test) / τ)`. -/
def branchTest (ex : F → F) (timeTest tau t : F) : F :=
  ex (-(t - timeTest) / tau)

/-- `Stimulation.__exponential_decay` (stimulation.py:191-224), with
`math.exp` passed as the parameter `ex`.  `time_test` is computed before
the branch dispatch, so a `None` `time_wait_test` raises `TypeError`
first; inside a branch, a zero `period` (modulo) or zero `τ` raises
`ZeroDivisionError` and a `None` `τ` raises `TypeError`; the final
`intensity * f` raises `TypeError` on a `None` intensity. -/
def expDecay [FloorRing F] (ex : F → F) (s : Stimulation F) (t : F) :
    Except PyErr F :=
  match s.timeWaitTest with
  | none => .error .typeError
  | some w =>
    let timeTest :=
      s.timeStartStimulation + ((s.conditionalStimuli : F) - 1) * s.period + w
    let fval : Except PyErr F :=
      if s.timeStartStimulation ≤ t ∧ t < s.timeEndStimulation then
        if s.period = 0 then .error .zeroDivisionError
        else
          match s.tauStimulus with
          | none => .error .typeError
          | some tau =>
            if tau = 0 then .error .zeroDivisionError
            else .ok (branchConditioning ex s.timeStartStimulation s.period tau t)
      else if s.timeEndStimulation ≤ t ∧ t < timeTest then
        match s.tauStimulus with
        | none => .error .typeError
        | some tau =>
          if tau = 0 then .error .zeroDivisionError
          else
            .ok (branchInterphase ex s.timeStartStimulation s.conditionalStimuli
              s.period tau t)
      else if timeTest ≤ t then
        match s.tauStimulus with
        | none => .error .typeError
        | some tau =>
          if tau = 0 then .error .zeroDivisionError
          else .ok (branchTest ex timeTest tau t)
      else .ok 0
    match fval, s.intensityStimulus with
    | .error e, _ => .error e
    | .ok _, none => .error .typeError
    | .ok f, some i => .ok (i * f)

/-- `Stimulation.stimuli` (stimulation.py:152) for a
`type_stimulus='exponential_decay'` protocol: dispatches to
`__exponential_decay`. -/
def stimuli [FloorRing F] (ex : F → F) (s : Stimulation F) (t : F) :
    Except PyErr F :=
  expDecay ex s t

/-- Constructing a protocol and evaluating it at time `t`, the way the
solver uses a `Stimulation` object. -/
def mkAndEval [FloorRing F] (ex : F → F) (timeStart : Option F)
    (conditional : Option ℤ) (period : Option F) (tau : Option F)
    (intensity : Option F) (timeWait : Option F) (t : F) : Except PyErr F :=
  match init timeStart conditional period tau intensity timeWait with
  | .error e => .error e
  | .ok s => stimuli ex s t

end Stimulation

/-- Did the computation finish without a Python error? -/
def exceptOk : Except PyErr α → Bool
  | .ok _ => true
  | .error _ => false

/-- Python truthiness of an `Option Bool` attribute (`None` and `False`
are falsy), as consulted by the solver's `assert` statements. -/
def truthy : Option Bool → Bool
  | some true => true
  | _ => false

namespace Solver

variable {F : Type} [LinearOrderedField F]

/-- One row of the solver's `results` list (solver.py:325-329): the
repetition index, the save time, the instantaneous pool counts and the
monitored-transition tallies recorded since the previous row. -/
structure SimRow (F : Type) where
  run : ℕ
  time : F
  state : PyDict ℤ
  tally : PyDict ℕ

/-- `Solver.__list2dictzero` (solver.py:230): a zeroed tally dict for the
monitored transition names. -/
def zeroTally (l : List String) : PyDict ℕ :=
  dictItems (l.map (fun n => (n, (0 : ℕ))))

/-- The tally update `dummy_transitions[name] += 1` (solver.py:368). -/
def bumpTally (tally : PyDict ℕ) (n : String) : PyDict ℕ :=
  tally.map (fun p => if p.1 = n then (p.1, p.2 + 1) else p)

/-- The propensity loop of `Solver.__gillespie` (solver.py:290-308): for
each transition, the origin pool's count is fetched (`KeyError` if the
origin is not a registered pool), the rate gains the stimulation value
`stimval` when calcium-dependent and not a resting-state simulation, and
the propensity is `rate * count`, recorded per transition name in
declaration order. -/
def propensityList (stimval : F) (resting : Bool) (pools : PyDict ℤ) :
    List (String × Transition F) → Except PyErr (List (String × F))
  | [] => .ok []
  | (n, tr) :: rest =>
    match pools.lookup tr.origin with
    | none => .error .keyError
    | some c =>
      match propensityList stimval resting pools rest with
      | .error e => .error e
      | .ok rest' =>
        let rate := tr.rateConstant.rate +
          (if tr.rateConstant.calciumDependent ∧ ¬resting then stimval else 0)
        .ok ((n, rate * (c : F)) :: rest')

/-- The event-selection scan of `Solver.__gillespie` (solver.py:338-346):
accumulate propensities in declaration order, break at the first
cumulative sum strictly exceeding the draw `u2`; if the break never
fires, the loop variable is left at the last transition, which is then
used; on an empty dict the loop variable is unbound (`NameError`,
returned as `none` here). -/
def selectLoop (u2 acc : F) : List (String × F) → Option String
  | [] => none
  | [(k, _)] => some k
  | (k, v) :: rest =>
    if acc + v > u2 then some k else selectLoop u2 (acc + v) rest

/-- The snapshot-emission loop of `Solver.__gillespie` (solver.py:324-332):
while the next event time `tNew` has passed the save point and the save
point has not passed `time_end`, a row with the current pool counts and
the pending tallies is emitted, the tallies are reset, and the save
point advances by `dt`.  The loop of the source runs at most
finitely many times (`dt > 0`); `fuel` bounds the unrolling, and every
property proved below holds for all fuels. -/
def emitRows (i : ℕ) (pools : PyDict ℤ) (saveTrans : List String)
    (dt timeEnd tNew : F) :
    ℕ → F → PyDict ℕ → List (SimRow F) × F × PyDict ℕ
  | 0, tsave, tally => ([], tsave, tally)
  | fuel + 1, tsave, tally =>
    if tNew ≥ tsave ∧ tsave ≤ timeEnd then
      let row : SimRow F := ⟨i, tsave, pools, tally⟩
      let rec' := emitRows i pools saveTrans dt timeEnd tNew fuel (tsave + dt)
        (zeroTally saveTrans)
      (row :: rec'.1, rec'.2)
    else ([], tsave, tally)

/-- The mutable state of one trajectory of the SSA loop. -/
structure LoopState (F : Type) where
  pools : PyDict ℤ
  t : F
  tsave : F
  tally : PyDict ℕ
  rows : List (SimRow F)

/-- One iteration of the `while tsave <= time_end` loop of
`Solver.__gillespie` (solver.py:284-368).  `draw.1` stands for the value
`math.log(1.0 / random())` of the event-time draw and `draw.2` for the
raw `random()` of the event-selection draw; `stimF t` stands for
`self.__stimulation.stimuli(t)`.  A zero total propensity raises
`ZeroDivisionError` at the event-time division (solver.py:318). -/
def gillespieIter (trs : PyDict (Transition F)) (stimF : F → F)
    (resting : Bool) (saveTrans : List String) (i : ℕ) (dt timeEnd : F)
    (emitFuel : ℕ) (draw : F × F) (st : LoopState F) :
    Except PyErr (LoopState F) :=
  match propensityList (stimF st.t) resting st.pools trs with
  | .error e => .error e
  | .ok a =>
    let a0 := (a.map Prod.snd).sum
    if a0 = 0 then .error .zeroDivisionError
    else
      let tNew := st.t + draw.1 / a0
      let emitted := emitRows i st.pools saveTrans dt timeEnd tNew emitFuel
        st.tsave st.tally
      match selectLoop (draw.2 * a0) 0 a with
      | none => .error .nameError
      | some name =>
        match trs.lookup name with
        | none => .error .keyError
        | some tr =>
          match adjustVesicles st.pools tr.origin (-1) with
          | .error e => .error e
          | .ok p1 =>
            match adjustVesicles p1 tr.destination 1 with
            | .error e => .error e
            | .ok p2 =>
              .ok ⟨p2, tNew, emitted.2.1,
                if name ∈ saveTrans then bumpTally emitted.2.2 name
                else emitted.2.2,
                st.rows ++ emitted.1⟩

/-- The `while tsave <= time_end` loop of `Solver.__gillespie`
(solver.py:284), unrolled along the list of random draws: the source's
loop stops when the save point passes `time_end`; a run of the source
corresponds to a draw list at least as long as the number of its
iterations. -/
def gillespieLoop (trs : PyDict (Transition F)) (stimF : F → F)
    (resting : Bool) (saveTrans : List String) (i : ℕ) (dt timeEnd : F)
    (emitFuel : ℕ) : List (F × F) → LoopState F → Except PyErr (LoopState F)
  | [], st => .ok st
  | d :: rest, st =>
    if st.tsave ≤ timeEnd then
      match gillespieIter trs stimF resting saveTrans i dt timeEnd emitFuel
        d st with
      | .error e => .error e
      | .ok st' =>
        gillespieLoop trs stimF resting saveTrans i dt timeEnd emitFuel rest st'
    else .ok st

/-- The repetition loop of `Solver.__gillespie` (solver.py:271-377): each
repetition first copies the recorded resting state into the live pools
via `set_initial_state` (solver.py:275), runs one trajectory, and the
rows of all repetitions are concatenated.  The live pools persist from
one repetition to the next, exactly as in the source. -/
def gillespieRun (trs : PyDict (Transition F)) (restingD : PyDict ℤ)
    (stimF : F → F) (resting : Bool) (saveTrans : List String)
    (dt timeEnd : F) (emitFuel : ℕ) :
    List (List (F × F)) → ℕ → PyDict ℤ →
    Except PyErr (PyDict ℤ × List (SimRow F))
  | [], _, pools => .ok (pools, [])
  | draws :: moreReps, i, pools =>
    match KineticModel.setCounts restingD pools with
    | .error e => .error e
    | .ok pools1 =>
      match gillespieLoop trs stimF resting saveTrans i dt timeEnd emitFuel
        draws ⟨pools1, 0, 0, zeroTally saveTrans, []⟩ with
      | .error e => .error e
      | .ok st =>
        match gillespieRun trs restingD stimF resting saveTrans dt timeEnd
          emitFuel moreReps (i + 1) st.pools with
        | .error e => .error e
        | .ok res => .ok (res.1, st.rows ++ res.2)

/-- `Solver.run` (solver.py:138-178): asserts that the resting state has
been established, then validates every monitored transition name, then
the method name, and only then enters `__gillespie`.  The number of
repetitions is the length of `drawsPerRep`. -/
def run (m : KineticModel F) (stimF : F → F) (timeEnd dt : F)
    (method : String) (saveTrans : List String)
    (drawsPerRep : List (List (F × F))) (emitFuel : ℕ) :
    Except PyErr (KineticModel F × List (SimRow F)) :=
  if ¬ truthy m.initRestingFlag then .error .assertionError
  else if saveTrans.all (fun e => decide (e ∈ m.transitions.keys)) then
    if method = "gillespie" then
      match gillespieRun m.transitions m.restingState stimF false saveTrans
        dt timeEnd emitFuel drawsPerRep 0 m.transitionStates with
      | .error e => .error e
      | .ok res =>
        .ok (⟨m.vesicles, res.1, m.transitions, m.restingState, m.initFlag,
          m.initRestingFlag⟩, res.2)
    else .error .valueError
  else .error .valueError

/-- The `for _ in trange(3)` attempt loop of `Solver.resting_state`
(solver.py:116-130): each attempt simulates one trajectory with
`resting_state_simulation=True` and applies the `__resting_test`
convergence check, abstracted here as the parameter `test` (its pandas
internals are irrelevant to the claims).  On a successful test the
source executes `self.__model.set_resting_state(state)` (solver.py:128)
— a call with one positional argument to a method that accepts none
(kinetic_model.py:245), which Python rejects with `TypeError`.  When all
attempts fail, the loop ends normally with `success = False` and the
surrounding method only prints a message.  The result carries the final
pools, the number of trajectories simulated and the success flag. -/
def restingLoop (trs : PyDict (Transition F)) (restingD : PyDict ℤ)
    (stimF : F → F) (dt timeEnd : F) (emitFuel : ℕ)
    (test : List (SimRow F) → Option (PyDict ℤ)) :
    ℕ → List (List (F × F)) → PyDict ℤ → ℕ →
    Except PyErr (PyDict ℤ × ℕ × Bool)
  | 0, _, pools, count => .ok (pools, count, false)
  | k + 1, dss, pools, count =>
    match gillespieRun trs restingD stimF true [] dt timeEnd emitFuel
      [dss.headD []] 0 pools with
    | .error e => .error e
    | .ok res =>
      match test res.2 with
      | some _ => .error .typeError
      | none => restingLoop trs restingD stimF dt timeEnd emitFuel test k
          dss.tail res.1 (count + 1)

/-- `Solver.resting_state` (solver.py:93-136): asserts that the model is
initialized, then runs the attempt loop (three attempts, save interval
hard-coded to `0.01`, stimulation suppressed). -/
def restingState (m : KineticModel F) (stimF : F → F) (timeEnd : F)
    (emitFuel : ℕ) (test : List (SimRow F) → Option (PyDict ℤ))
    (dss : List (List (F × F))) :
    Except PyErr (KineticModel F × ℕ × Bool) :=
  if ¬ truthy m.initFlag then .error .assertionError
  else
    match restingLoop m.transitions m.restingState stimF (1 / 100) timeEnd
      emitFuel test 3 dss m.transitionStates 0 with
    | .error e => .error e
    | .ok res =>
      .ok (⟨m.vesicles, res.1, m.transitions, m.restingState, m.initFlag,
        m.initRestingFlag⟩, res.2)

end Solver

/-! ### Lemmas about the Python-dict embedding -/

namespace PyDict

theorem lookup_eq_none_of_not_mem {d : PyDict α} {k : String}
    (h : k ∉ d.keys) : d.lookup k = none := by
  induction d with
  | nil => rfl
  | cons p rest ih =>
    simp only [keys, List.map_cons, List.mem_cons] at h
    push_neg at h
    simpa [lookup, Ne.symm h.1] using ih h.2

theorem lookup_append (d₁ d₂ : PyDict α) (k : String) :
    lookup k (d₁ ++ d₂) =
      match lookup k d₁ with
      | some v => some v
      | none => lookup k d₂ := by
  induction d₁ with
  | nil => rfl
  | cons p rest ih =>
    by_cases h : p.1 = k
    · simp [lookup, h]
    · simpa [lookup, h] using ih

theorem lookup_map_self (d : PyDict α) (k : String) (v : α) :
    lookup k (d.map fun p => if p.1 = k then (k, v) else p) =
      if k ∈ d.keys then some v else none := by
  induction d with
  | nil => rfl
  | cons p rest ih =>
    obtain ⟨a, b⟩ := p
    rw [List.map_cons]
    by_cases h : a = k
    · rw [show (if (a, b).1 = k then (k, v) else (a, b)) = (k, v) from
        if_pos h, lookup, if_pos rfl]
      simp [keys, h]
    · rw [show (if (a, b).1 = k then (k, v) else (a, b)) = (a, b) from
        if_neg h, lookup, if_neg h, ih]
      exact (if_congr (by simp [keys, Ne.symm h]) rfl rfl).symm

theorem lookup_map_ne (d : PyDict α) {k k' : String} (v : α) (h : k ≠ k') :
    lookup k (d.map fun p => if p.1 = k' then (k', v) else p) = lookup k d := by
  induction d with
  | nil => rfl
  | cons p rest ih =>
    obtain ⟨a, b⟩ := p
    rw [List.map_cons]
    by_cases hp : a = k'
    · rw [show (if (a, b).1 = k' then (k', v) else (a, b)) = (k', v) from
        if_pos hp, lookup, if_neg (Ne.symm h), ih, lookup,
        if_neg (by rw [hp]; exact Ne.symm h)]
    · rw [show (if (a, b).1 = k' then (k', v) else (a, b)) = (a, b) from
        if_neg hp, lookup, lookup, ih]

theorem lookup_insert_self (d : PyDict α) (k : String) (v : α) :
    (d.insertItem k v).lookup k = some v := by
  unfold insertItem
  by_cases h : k ∈ d.keys
  · rw [if_pos h, lookup_map_self, if_pos h]
  · rw [if_neg h, lookup_append, lookup_eq_none_of_not_mem h]
    simp [lookup]

theorem lookup_insert_ne (d : PyDict α) {k k' : String} (v : α)
    (h : k ≠ k') : (d.insertItem k' v).lookup k = d.lookup k := by
  unfold insertItem
  by_cases hm : k' ∈ d.keys
  · rw [if_pos hm, lookup_map_ne d v h]
  · rw [if_neg hm, lookup_append]
    cases hd : lookup k d with
    | some w => rfl
    | none => simp [lookup, Ne.symm h]

theorem keys_insert (d : PyDict α) (k : String) (v : α) :
    (d.insertItem k v).keys = if k ∈ d.keys then d.keys else d.keys ++ [k] := by
  unfold insertItem
  by_cases h : k ∈ d.keys
  · rw [if_pos h, if_pos h]
    unfold keys
    rw [List.map_map]
    refine List.map_congr_left (fun p _ => ?_)
    by_cases hp : p.1 = k <;> simp [hp]
  · rw [if_neg h, if_neg h]
    simp [keys]

theorem mem_keys_insert (d : PyDict α) (k k' : String) (v : α) :
    k ∈ (d.insertItem k' v).keys ↔ k ∈ d.keys ∨ k = k' := by
  rw [keys_insert]
  by_cases h : k' ∈ d.keys
  · rw [if_pos h]
    constructor
    · exact fun hk => Or.inl hk
    · rintro (hk | rfl) <;> [exact hk; exact h]
  · rw [if_neg h]
    simp

theorem nodup_keys_insert {d : PyDict α} (k : String) (v : α)
    (h : d.keys.Nodup) : (d.insertItem k v).keys.Nodup := by
  rw [keys_insert]
  by_cases hm : k ∈ d.keys
  · rwa [if_pos hm]
  · rw [if_neg hm]
    simpa [List.nodup_append] using ⟨h, hm⟩

end PyDict

theorem lookup_foldl_insert (l : List (String × α)) :
    ∀ (d : PyDict α) (k : String),
      PyDict.lookup k (l.foldl (fun d p => d.insertItem p.1 p.2) d) =
        match lastVal k l with
        | some v => some v
        | none => d.lookup k := by
  induction l with
  | nil => intro d k; rfl
  | cons p rest ih =>
    intro d k
    simp only [List.foldl_cons, ih, lastVal]
    cases lastVal k rest with
    | some w => rfl
    | none =>
      by_cases h : p.1 = k
      · subst h
        simp [PyDict.lookup_insert_self]
      · simp [h, PyDict.lookup_insert_ne d p.2 (Ne.symm h)]

theorem dictItems_lookup (l : List (String × α)) (k : String) :
    PyDict.lookup k (dictItems l) = lastVal k l := by
  unfold dictItems
  rw [lookup_foldl_insert]
  cases lastVal k l <;> rfl

theorem mem_keys_foldl_insert (l : List (String × α)) :
    ∀ (d : PyDict α) (k : String),
      k ∈ (l.foldl (fun d p => d.insertItem p.1 p.2) d).keys ↔
        k ∈ d.keys ∨ k ∈ l.map Prod.fst := by
  induction l with
  | nil => intro d k; simp
  | cons p rest ih =>
    intro d k
    simp only [List.foldl_cons, ih, PyDict.mem_keys_insert, List.map_cons,
      List.mem_cons]
    tauto

theorem mem_keys_dictItems (l : List (String × α)) (k : String) :
    k ∈ (dictItems l).keys ↔ k ∈ l.map Prod.fst := by
  unfold dictItems
  rw [mem_keys_foldl_insert]
  simp [PyDict.keys]

theorem dictItems_nodup_keys (l : List (String × α)) :
    (dictItems l).keys.Nodup := by
  unfold dictItems
  suffices h : ∀ (d : PyDict α), d.keys.Nodup →
      (l.foldl (fun d p => d.insertItem p.1 p.2) d).keys.Nodup from
    h [] (by simp [PyDict.keys])
  induction l with
  | nil => exact fun d h => h
  | cons p rest ih =>
    intro d hd
    exact ih _ (PyDict.nodup_keys_insert p.1 p.2 hd)

theorem lastVal_eq_none_of_not_mem {l : List (String × α)} {k : String}
    (h : k ∉ l.map Prod.fst) : lastVal k l = none := by
  induction l with
  | nil => rfl
  | cons p rest ih =>
    simp only [List.map_cons, List.mem_cons] at h
    push_neg at h
    rw [lastVal, ih h.2]
    simp [Ne.symm h.1]

/-! ### Lemmas about pool updates -/

theorem lookup_of_mem_nodup {d : PyDict α} (hnd : d.keys.Nodup) {n : String}
    {c : α} (h : (n, c) ∈ d) : d.lookup n = some c := by
  induction d with
  | nil => exact absurd h (List.not_mem_nil _)
  | cons p rest ih =>
    obtain ⟨a, b⟩ := p
    simp only [PyDict.keys, List.map_cons, List.nodup_cons] at hnd
    rcases List.mem_cons.mp h with he | hm
    · injection he with h1 h2
      subst h1
      subst h2
      simp [PyDict.lookup]
    · have hne : a ≠ n := fun he => hnd.1 (List.mem_map.mpr ⟨(n, c), hm, he.symm⟩)
      simpa [PyDict.lookup, hne] using ih hnd.2 hm

theorem mem_of_lookup {d : PyDict α} {n : String} {c : α}
    (h : d.lookup n = some c) : (n, c) ∈ d := by
  induction d with
  | nil => exact absurd h (by simp [PyDict.lookup])
  | cons p rest ih =>
    obtain ⟨a, b⟩ := p
    by_cases he : a = n
    · subst he
      rw [PyDict.lookup, if_pos rfl] at h
      injection h with h
      exact List.mem_cons.mpr (Or.inl (by rw [h]))
    · rw [PyDict.lookup, if_neg he] at h
      exact List.mem_cons.mpr (Or.inr (ih h))

theorem adjustVesicles_keys {pools : PyDict ℤ} {name : String} {δ : ℤ}
    {p' : PyDict ℤ} (h : adjustVesicles pools name δ = .ok p') :
    p'.keys = pools.keys := by
  unfold adjustVesicles at h
  by_cases hm : name ∈ pools.keys
  · rw [if_pos hm] at h
    injection h with h
    subst h
    unfold PyDict.keys
    rw [List.map_map]
    refine List.map_congr_left fun p _ => ?_
    by_cases hp : p.1 = name <;> simp [hp]
  · rw [if_neg hm] at h
    exact absurd h (by simp)

theorem adjustVesicles_sum {pools : PyDict ℤ} {name : String} {δ : ℤ}
    {p' : PyDict ℤ} (hnd : pools.keys.Nodup)
    (h : adjustVesicles pools name δ = .ok p') :
    sumCounts p' = sumCounts pools + δ := by
  unfold adjustVesicles at h
  by_cases hm : name ∈ pools.keys
  · rw [if_pos hm] at h
    injection h with h
    subst h
    induction pools with
    | nil => exact absurd hm (by simp [PyDict.keys])
    | cons p rest ih =>
      obtain ⟨a, b⟩ := p
      simp only [PyDict.keys, List.map_cons, List.nodup_cons] at hnd
      by_cases ha : a = name
      · subst ha
        have hrest : rest.map (fun p => if p.1 = a then (p.1, p.2 + δ) else p)
            = rest := by
          have hid : ∀ p ∈ rest, (if p.1 = a then (p.1, p.2 + δ) else p) = p := by
            intro p hp
            have hne : p.1 ≠ a := fun he => hnd.1 (List.mem_map.mpr ⟨p, hp, he⟩)
            simp [hne]
          simpa using List.map_congr_left hid
        simp only [List.map_cons, if_pos rfl, hrest]
        simp [sumCounts]
        ring
      · have hm' : name ∈ PyDict.keys rest := by
          have hmm : name ∈ a :: PyDict.keys rest := by
            simpa [PyDict.keys] using hm
          rcases List.mem_cons.mp hmm with he | hr
          · exact absurd he.symm ha
          · exact hr
        have := ih hnd.2 hm'
        simp only [List.map_cons, if_neg ha]
        simp only [sumCounts, List.map_cons, List.sum_cons] at this ⊢
        linarith
  · rw [if_neg hm] at h
    exact absurd h (by simp)

theorem adjustVesicles_nonneg {pools : PyDict ℤ} {name : String} {δ : ℤ}
    {p' : PyDict ℤ} (hnd : pools.keys.Nodup)
    (hpos : ∀ p ∈ pools, 0 ≤ p.2)
    (h : adjustVesicles pools name δ = .ok p')
    (hc : ∀ c : ℤ, pools.lookup name = some c → 0 ≤ c + δ) :
    ∀ p ∈ p', 0 ≤ p.2 := by
  unfold adjustVesicles at h
  by_cases hm : name ∈ pools.keys
  · rw [if_pos hm] at h
    injection h with h
    subst h
    intro q hq
    obtain ⟨p, hp, rfl⟩ := List.mem_map.mp hq
    by_cases hpn : p.1 = name
    · rw [if_pos hpn]
      have hlk : pools.lookup name = some p.2 := by
        rw [← hpn]
        exact lookup_of_mem_nodup hnd hp
      exact hc p.2 hlk
    · rw [if_neg hpn]
      exact hpos p hp
  · rw [if_neg hm] at h
    exact absurd h (by simp)

theorem setCounts_keys {d : PyDict ℤ} :
    ∀ {l : List (String × ℤ)} {l' : PyDict ℤ},
      KineticModel.setCounts d l = .ok l' → l'.keys = PyDict.keys l := by
  intro l
  induction l with
  | nil =>
    intro l' h
    rw [KineticModel.setCounts] at h
    injection h with h
    subst h
    rfl
  | cons p rest ih =>
    intro l' h
    obtain ⟨n, c⟩ := p
    rw [KineticModel.setCounts] at h
    cases hd : d.lookup n with
    | none => rw [hd] at h; exact absurd h (by simp)
    | some v =>
      rw [hd] at h
      cases hr : KineticModel.setCounts d rest with
      | error e => rw [hr] at h; exact absurd h (by simp)
      | ok rest' =>
        rw [hr] at h
        injection h with h
        subst h
        simpa [PyDict.keys] using ih hr

theorem setCounts_congr {d : PyDict ℤ} :
    ∀ {l q : List (String × ℤ)}, PyDict.keys l = PyDict.keys q →
      KineticModel.setCounts d l = KineticModel.setCounts d q := by
  intro l
  induction l with
  | nil =>
    intro q hk
    have : q = [] := by
      cases q with
      | nil => rfl
      | cons p r => exact absurd hk.symm (by simp [PyDict.keys])
    rw [this]
  | cons p rest ih =>
    intro q hk
    cases q with
    | nil => exact absurd hk (by simp [PyDict.keys])
    | cons p' rest' =>
      simp only [PyDict.keys, List.map_cons, List.cons.injEq] at hk
      obtain ⟨n, c⟩ := p
      obtain ⟨n', c'⟩ := p'
      obtain ⟨rfl, hk2⟩ := hk
      rw [KineticModel.setCounts, KineticModel.setCounts, ih hk2]

/-! ### Lemmas about the event-selection scan -/

namespace Solver

variable {F : Type} [LinearOrderedField F]

theorem take_sum_nonneg {l : List F} (h : ∀ v ∈ l, 0 ≤ v) (i : ℕ) :
    0 ≤ (l.take i).sum :=
  List.sum_nonneg fun v hv => h v (List.mem_of_mem_take hv)

/-- When the draw is below the remaining total, the scan stops at the
first position whose cumulative propensity strictly exceeds the draw. -/
theorem selectLoop_break (l : List (String × F)) :
    ∀ u2 acc : F, l ≠ [] → (∀ p ∈ l, 0 ≤ p.2) →
      u2 < acc + (l.map Prod.snd).sum →
      ∃ (i : ℕ) (h : i < l.length),
        selectLoop u2 acc l = some (l.get ⟨i, h⟩).1 ∧
        u2 < acc + ((l.map Prod.snd).take (i + 1)).sum ∧
        ∀ j < i, acc + ((l.map Prod.snd).take (j + 1)).sum ≤ u2 := by
  induction l with
  | nil => intro u2 acc hne _ _; exact absurd rfl hne
  | cons p tl ih =>
    intro u2 acc _ hnn hu
    obtain ⟨k, v⟩ := p
    cases tl with
    | nil =>
      refine ⟨0, by simp, rfl, ?_, fun j hj => absurd hj (Nat.not_lt_zero j)⟩
      simpa using hu
    | cons q rest =>
      by_cases hbr : acc + v > u2
      · refine ⟨0, by simp, ?_, by simpa using hbr,
          fun j hj => absurd hj (Nat.not_lt_zero j)⟩
        show (if acc + v > u2 then some k else _) = some k
        rw [if_pos hbr]
      · push_neg at hbr
        have hnn' : ∀ r ∈ q :: rest, 0 ≤ r.2 :=
          fun r hr => hnn r (List.mem_cons_of_mem _ hr)
        have hu' : u2 < (acc + v) + ((q :: rest).map Prod.snd).sum := by
          have hs : (((k, v) :: q :: rest).map Prod.snd).sum =
              v + ((q :: rest).map Prod.snd).sum := by simp
          rw [hs] at hu
          linarith
        obtain ⟨i, hlen, hsel, hub, hlb⟩ := ih u2 (acc + v) (by simp) hnn' hu'
        refine ⟨i + 1, Nat.succ_lt_succ hlen, ?_, ?_, ?_⟩
        · show (if acc + v > u2 then some k else
            selectLoop u2 (acc + v) (q :: rest)) = _
          rw [if_neg (not_lt.mpr hbr)]
          exact hsel
        · have hs : ((((k, v) :: q :: rest).map Prod.snd).take (i + 2)).sum =
              v + (((q :: rest).map Prod.snd).take (i + 1)).sum := by
            simp [List.take_succ_cons]
          rw [hs]
          linarith
        · intro j hj
          cases j with
          | zero => simpa using hbr
          | succ j' =>
            have hs : ((((k, v) :: q :: rest).map Prod.snd).take (j' + 2)).sum
                = v + (((q :: rest).map Prod.snd).take (j' + 1)).sum := by
              simp [List.take_succ_cons]
            rw [hs, ← add_assoc]
            exact hlb j' (Nat.lt_of_succ_lt_succ hj)

/-- Conversely, a draw falling in the `i`-th cumulative-propensity window
makes the scan return the `i`-th transition. -/
theorem selectLoop_of_between (l : List (String × F)) :
    ∀ (u acc : F) (i : ℕ) (h : i < l.length), (∀ p ∈ l, 0 ≤ p.2) →
      acc + ((l.map Prod.snd).take i).sum ≤ u →
      u < acc + ((l.map Prod.snd).take (i + 1)).sum →
      selectLoop u acc l = some (l.get ⟨i, h⟩).1 := by
  induction l with
  | nil => intro u acc i h; exact absurd h (by simp)
  | cons p tl ih =>
    intro u acc i h hnn hlo hhi
    obtain ⟨k, v⟩ := p
    cases i with
    | zero =>
      simp only [List.map_cons, List.take_zero, List.sum_nil, add_zero] at hlo
      have hv : u < acc + v := by
        have hs : ((((k, v) :: tl).map Prod.snd).take 1).sum = v := by simp
        rw [hs] at hhi
        exact hhi
      cases tl with
      | nil => rfl
      | cons q rest =>
        show (if acc + v > u then some k else _) = some k
        rw [if_pos hv]
    | succ j =>
      have htl : j < tl.length := Nat.lt_of_succ_lt_succ h
      have hne : tl ≠ [] := List.ne_nil_of_length_pos (Nat.lt_of_le_of_lt
        (Nat.zero_le j) htl)
      have hnn' : ∀ r ∈ tl, 0 ≤ r.2 :=
        fun r hr => hnn r (List.mem_cons_of_mem _ hr)
      have hsj : ((((k, v) :: tl).map Prod.snd).take (j + 1)).sum =
          v + ((tl.map Prod.snd).take j).sum := by
        simp [List.take_succ_cons]
      have hsj' : ((((k, v) :: tl).map Prod.snd).take (j + 2)).sum =
          v + ((tl.map Prod.snd).take (j + 1)).sum := by
        simp [List.take_succ_cons]
      rw [hsj] at hlo
      rw [hsj'] at hhi
      have hbr : acc + v ≤ u := by
        have hts : 0 ≤ ((tl.map Prod.snd).take j).sum :=
          take_sum_nonneg
            (fun w hw => by
              obtain ⟨r, hr, rfl⟩ := List.mem_map.mp hw
              exact hnn' r hr) j
        linarith
      have hrec := ih u (acc + v) j htl hnn' (by linarith) (by linarith)
      cases tl with
      | nil => exact absurd rfl hne
      | cons q rest =>
        show (if acc + v > u then some k else
          selectLoop u (acc + v) (q :: rest)) = _
        rw [if_neg (not_lt.mpr hbr)]
        exact hrec

omit [LinearOrderedField F] in
theorem get_fst_eq_map_get (l : List (String × F)) (i : ℕ) (h : i < l.length) :
    (l.map Prod.fst).get ⟨i, by simpa using h⟩ = (l.get ⟨i, h⟩).1 := by
  simp

/-- Cumulative propensity over one more transition. -/
theorem take_sum_succ_pair (a : List (String × F)) (i : ℕ) (h : i < a.length) :
    ((a.map Prod.snd).take (i + 1)).sum =
      ((a.map Prod.snd).take i).sum + (a.get ⟨i, h⟩).2 := by
  have hlen : i < (a.map Prod.snd).length := by simpa using h
  rw [List.sum_take_succ _ i hlen]
  congr 1
  simp

/-- Every row produced by the snapshot-emission loop records the pool
counts it was given. -/
theorem emitRows_state (i : ℕ) (pools : PyDict ℤ) (saveTrans : List String)
    (dt timeEnd tNew : F) :
    ∀ (fuel : ℕ) (tsave : F) (tally : PyDict ℕ),
      ∀ r ∈ (emitRows i pools saveTrans dt timeEnd tNew fuel tsave tally).1,
        r.state = pools := by
  intro fuel
  induction fuel with
  | zero => intro tsave tally r hr; exact absurd hr (List.not_mem_nil r)
  | succ n ih =>
    intro tsave tally r hr
    rw [emitRows] at hr
    by_cases hc : tNew ≥ tsave ∧ tsave ≤ timeEnd
    · rw [if_pos hc] at hr
      rcases List.mem_cons.mp hr with he | hm
      · rw [he]
      · exact ih (tsave + dt) (zeroTally saveTrans) r hm
    · rw [if_neg hc] at hr
      exact absurd hr (List.not_mem_nil r)

/-- Every entry of the propensity list is the rate (with the stimulation
contribution when applicable) of a registered transition times its
origin pool's count. -/
theorem propensityList_mem {stimval : F} {resting : Bool} {pools : PyDict ℤ} :
    ∀ {l : List (String × Transition F)} {a : List (String × F)},
      propensityList stimval resting pools l = .ok a →
      ∀ q ∈ a, ∃ tr : Transition F, (q.1, tr) ∈ l ∧ ∃ c : ℤ,
        pools.lookup tr.origin = some c ∧
        q.2 = (tr.rateConstant.rate +
          (if tr.rateConstant.calciumDependent ∧ ¬resting then stimval
            else 0)) * (c : F) := by
  intro l
  induction l with
  | nil =>
    intro a h q hq
    rw [propensityList] at h
    injection h with h
    subst h
    exact absurd hq (List.not_mem_nil q)
  | cons p rest ih =>
    intro a h q hq
    obtain ⟨n, tr⟩ := p
    rw [propensityList] at h
    cases hlk : pools.lookup tr.origin with
    | none => rw [hlk] at h; exact absurd h (by simp)
    | some c =>
      rw [hlk] at h
      cases hr : propensityList stimval resting pools rest with
      | error e => rw [hr] at h; exact absurd h (by simp)
      | ok rest' =>
        rw [hr] at h
        injection h with h
        subst h
        rcases List.mem_cons.mp hq with he | hm
        · subst he
          exact ⟨tr, List.mem_cons_self _ _, c, hlk, rfl⟩
        · obtain ⟨tr', hmem, hc⟩ := ih hr q hm
          exact ⟨tr', List.mem_cons_of_mem _ hmem, hc⟩

/-- With non-negative rates, stimulation and counts, every propensity is
non-negative. -/
theorem propensityList_nonneg {stimval : F} {resting : Bool}
    {pools : PyDict ℤ} {l : List (String × Transition F)}
    {a : List (String × F)}
    (h : propensityList stimval resting pools l = .ok a)
    (hrate : ∀ p ∈ l, 0 ≤ p.2.rateConstant.rate) (hstim : 0 ≤ stimval)
    (hpos : ∀ p ∈ pools, 0 ≤ p.2) :
    ∀ q ∈ a, 0 ≤ q.2 := by
  intro q hq
  obtain ⟨tr, hmem, c, hlk, hval⟩ := propensityList_mem h q hq
  have hr : 0 ≤ tr.rateConstant.rate +
      (if tr.rateConstant.calciumDependent ∧ ¬resting then stimval else 0) := by
    have hr0 := hrate (q.1, tr) hmem
    by_cases hcal : tr.rateConstant.calciumDependent ∧ ¬resting
    · rw [if_pos hcal]; linarith
    · rw [if_neg hcal]; linarith
  have hcn : (0 : F) ≤ (c : F) := by
    have := hpos (tr.origin, c) (mem_of_lookup hlk)
    exact_mod_cast this
  rw [hval]
  exact mul_nonneg hr hcn

/-- The scan never selects a zero-propensity transition: the selected
position has strictly positive propensity. -/
theorem selectLoop_sel_pos {l : List (String × F)} {u2 : F}
    (hnn : ∀ p ∈ l, 0 ≤ p.2) (hne : l ≠ []) (h0 : 0 ≤ u2)
    (hu : u2 < (l.map Prod.snd).sum) {name : String}
    (hsel : selectLoop u2 0 l = some name) :
    ∃ (i : ℕ) (h : i < l.length),
      (l.get ⟨i, h⟩).1 = name ∧ 0 < (l.get ⟨i, h⟩).2 := by
  obtain ⟨i, h, hsel', hub, hlb⟩ :=
    selectLoop_break l u2 0 hne hnn (by simpa using hu)
  simp only [zero_add] at hub hlb
  have hci : ((l.map Prod.snd).take i).sum ≤ u2 := by
    cases i with
    | zero => simpa using h0
    | succ j => exact hlb j (Nat.lt_succ_self j)
  have hname : (l.get ⟨i, h⟩).1 = name :=
    Option.some.inj (hsel'.symm.trans hsel)
  refine ⟨i, h, hname, ?_⟩
  have hsum := take_sum_succ_pair l i h
  linarith

/-- One SSA iteration conserves the total count, keeps the key list
unchanged, and only appends rows whose recorded state is the pre-event
pool assignment. -/
theorem gillespieIter_facts {trs : PyDict (Transition F)} {stimF : F → F}
    {resting : Bool} {saveTrans : List String} {i : ℕ} {dt timeEnd : F}
    {emitFuel : ℕ} {draw : F × F} {st st' : LoopState F}
    (hnd : st.pools.keys.Nodup)
    (h : gillespieIter trs stimF resting saveTrans i dt timeEnd emitFuel draw
      st = .ok st') :
    sumCounts st'.pools = sumCounts st.pools ∧
    st'.pools.keys = st.pools.keys ∧
    ∃ newRows, st'.rows = st.rows ++ newRows ∧
      ∀ r ∈ newRows, r.state = st.pools := by
  rw [gillespieIter] at h
  cases hprop : propensityList (stimF st.t) resting st.pools trs with
  | error e => rw [hprop] at h; exact absurd h (by simp)
  | ok a =>
    rw [hprop] at h
    dsimp only at h
    by_cases ha0 : (a.map Prod.snd).sum = 0
    · rw [if_pos ha0] at h
      exact absurd h (by simp)
    · rw [if_neg ha0] at h
      cases hsel : selectLoop (draw.2 * (a.map Prod.snd).sum) 0 a with
      | none => rw [hsel] at h; exact absurd h (by simp)
      | some name =>
        rw [hsel] at h
        dsimp only at h
        cases hlk : trs.lookup name with
        | none => rw [hlk] at h; exact absurd h (by simp)
        | some tr =>
          rw [hlk] at h
          dsimp only at h
          cases hadj1 : adjustVesicles st.pools tr.origin (-1) with
          | error e => rw [hadj1] at h; exact absurd h (by simp)
          | ok p1 =>
            rw [hadj1] at h
            dsimp only at h
            cases hadj2 : adjustVesicles p1 tr.destination 1 with
            | error e => rw [hadj2] at h; exact absurd h (by simp)
            | ok p2 =>
              rw [hadj2] at h
              dsimp only at h
              injection h with h
              subst h
              have hk1 := adjustVesicles_keys hadj1
              have hk2 := adjustVesicles_keys hadj2
              have hnd1 : p1.keys.Nodup := hk1 ▸ hnd
              have hs1 := adjustVesicles_sum hnd hadj1
              have hs2 := adjustVesicles_sum hnd1 hadj2
              refine ⟨?_, ?_, _, rfl, ?_⟩
              · show sumCounts p2 = sumCounts st.pools
                linarith
              · show p2.keys = st.pools.keys
                rw [hk2, hk1]
              · exact emitRows_state i st.pools saveTrans dt timeEnd
                  (st.t + draw.1 / (a.map Prod.snd).sum) emitFuel st.tsave
                  st.tally

/-- One SSA iteration keeps every pool count non-negative: the selected
transition's origin holds at least one vesicle, because a
zero-propensity transition is never selected. -/
theorem gillespieIter_nonneg {trs : PyDict (Transition F)} {stimF : F → F}
    {resting : Bool} {saveTrans : List String} {i : ℕ} {dt timeEnd : F}
    {emitFuel : ℕ} {draw : F × F} {st st' : LoopState F}
    (hnd : st.pools.keys.Nodup) (hndt : trs.keys.Nodup)
    (hrate : ∀ p ∈ trs, 0 ≤ p.2.rateConstant.rate)
    (hstim : ∀ s : F, 0 ≤ stimF s)
    (hdraw : 0 ≤ draw.2 ∧ draw.2 < 1)
    (hpos : ∀ p ∈ st.pools, 0 ≤ p.2)
    (h : gillespieIter trs stimF resting saveTrans i dt timeEnd emitFuel draw
      st = .ok st') :
    ∀ p ∈ st'.pools, 0 ≤ p.2 := by
  rw [gillespieIter] at h
  cases hprop : propensityList (stimF st.t) resting st.pools trs with
  | error e => rw [hprop] at h; exact absurd h (by simp)
  | ok a =>
    rw [hprop] at h
    dsimp only at h
    by_cases ha0 : (a.map Prod.snd).sum = 0
    · rw [if_pos ha0] at h
      exact absurd h (by simp)
    · rw [if_neg ha0] at h
      cases hsel : selectLoop (draw.2 * (a.map Prod.snd).sum) 0 a with
      | none => rw [hsel] at h; exact absurd h (by simp)
      | some name =>
        rw [hsel] at h
        dsimp only at h
        cases hlk : trs.lookup name with
        | none => rw [hlk] at h; exact absurd h (by simp)
        | some tr =>
          rw [hlk] at h
          dsimp only at h
          cases hadj1 : adjustVesicles st.pools tr.origin (-1) with
          | error e => rw [hadj1] at h; exact absurd h (by simp)
          | ok p1 =>
            rw [hadj1] at h
            dsimp only at h
            cases hadj2 : adjustVesicles p1 tr.destination 1 with
            | error e => rw [hadj2] at h; exact absurd h (by simp)
            | ok p2 =>
              rw [hadj2] at h
              dsimp only at h
              injection h with h
              subst h
              -- the propensity list is non-negative and sums to a0 > 0
              have hannn : ∀ q ∈ a, 0 ≤ q.2 :=
                propensityList_nonneg hprop hrate (hstim st.t) hpos
              have ha0nn : 0 ≤ (a.map Prod.snd).sum :=
                List.sum_nonneg fun v hv => by
                  obtain ⟨q, hq, rfl⟩ := List.mem_map.mp hv
                  exact hannn q hq
              have ha0pos : 0 < (a.map Prod.snd).sum :=
                lt_of_le_of_ne ha0nn (Ne.symm ha0)
              have hne : a ≠ [] := by
                intro hnil
                subst hnil
                simp at ha0
              have hu0 : 0 ≤ draw.2 * (a.map Prod.snd).sum :=
                mul_nonneg hdraw.1 (le_of_lt ha0pos)
              have huu : draw.2 * (a.map Prod.snd).sum <
                  (a.map Prod.snd).sum := by
                calc draw.2 * (a.map Prod.snd).sum
                    < 1 * (a.map Prod.snd).sum :=
                      mul_lt_mul_of_pos_right hdraw.2 ha0pos
                  _ = (a.map Prod.snd).sum := one_mul _
              obtain ⟨j, hj, hjname, hjpos⟩ :=
                selectLoop_sel_pos hannn hne hu0 huu hsel
              -- the selected transition's origin holds at least one vesicle
              obtain ⟨tr', hmem, c, hlkc, hval⟩ :=
                propensityList_mem hprop (a.get ⟨j, hj⟩)
                  (List.get_mem a j hj)
              have htr' : tr' = tr := by
                have h1 : trs.lookup name = some tr' := by
                  rw [← hjname]
                  exact lookup_of_mem_nodup hndt hmem
                have h2 := h1.symm.trans hlk
                injection h2
              rw [htr'] at hmem hlkc hval
              have hcpos : (0 : F) < (c : F) := by
                by_contra hle
                push_neg at hle
                have hrr : 0 ≤ tr.rateConstant.rate +
                    (if tr.rateConstant.calciumDependent ∧ ¬resting
                      then stimF st.t else 0) := by
                  have hrt := hrate (name, tr) (mem_of_lookup hlk)
                  by_cases hcal : tr.rateConstant.calciumDependent ∧ ¬resting
                  · rw [if_pos hcal]; have := hstim st.t; linarith
                  · rw [if_neg hcal]; linarith
                rw [hval] at hjpos
                nlinarith
              have hc1 : (1 : ℤ) ≤ c := Int.cast_pos.mp hcpos
              -- both pool updates keep the counts non-negative
              have hp1 : ∀ p ∈ p1, 0 ≤ p.2 := by
                refine adjustVesicles_nonneg hnd hpos hadj1 ?_
                intro c' hc'
                have hcc' := hc'.symm.trans hlkc
                injection hcc' with hcc
                omega
              have hnd1 : p1.keys.Nodup := adjustVesicles_keys hadj1 ▸ hnd
              have hp2 : ∀ p ∈ p2, 0 ≤ p.2 := by
                refine adjustVesicles_nonneg hnd1 hp1 hadj2 ?_
                intro c' hc'
                have hcm := hp1 (tr.destination, c') (mem_of_lookup hc')
                omega
              exact hp2

/-- The trajectory loop conserves the total count and records only
conserving snapshots. -/
theorem gillespieLoop_conserve {trs : PyDict (Transition F)} {stimF : F → F}
    {resting : Bool} {saveTrans : List String} {i : ℕ} {dt timeEnd : F}
    {emitFuel : ℕ} :
    ∀ (draws : List (F × F)) (st st' : LoopState F), st.pools.keys.Nodup →
      gillespieLoop trs stimF resting saveTrans i dt timeEnd emitFuel draws st
        = .ok st' →
      sumCounts st'.pools = sumCounts st.pools ∧
      st'.pools.keys = st.pools.keys ∧
      ∀ r ∈ st'.rows, r ∈ st.rows ∨ sumCounts r.state = sumCounts st.pools := by
  intro draws
  induction draws with
  | nil =>
    intro st st' hnd h
    rw [gillespieLoop] at h
    injection h with h
    subst h
    exact ⟨rfl, rfl, fun r hr => Or.inl hr⟩
  | cons d rest ih =>
    intro st st' hnd h
    rw [gillespieLoop] at h
    by_cases hc : st.tsave ≤ timeEnd
    · rw [if_pos hc] at h
      cases hit : gillespieIter trs stimF resting saveTrans i dt timeEnd
        emitFuel d st with
      | error e => rw [hit] at h; exact absurd h (by simp)
      | ok st1 =>
        rw [hit] at h
        obtain ⟨hs1, hk1, nr, hrows, hnr⟩ := gillespieIter_facts hnd hit
        have hnd1 : st1.pools.keys.Nodup := hk1 ▸ hnd
        obtain ⟨hs2, hk2, hr2⟩ := ih st1 st' hnd1 h
        refine ⟨by rw [hs2, hs1], by rw [hk2, hk1], ?_⟩
        intro r hr
        rcases hr2 r hr with hin | hsum
        · rw [hrows] at hin
          rcases List.mem_append.mp hin with h1 | h2
          · exact Or.inl h1
          · exact Or.inr (by rw [hnr r h2])
        · exact Or.inr (by rw [← hs1]; exact hsum)
    · rw [if_neg hc] at h
      injection h with h
      subst h
      exact ⟨rfl, rfl, fun r hr => Or.inl hr⟩

/-- The trajectory loop keeps every count non-negative and records only
non-negative snapshots. -/
theorem gillespieLoop_nonneg {trs : PyDict (Transition F)} {stimF : F → F}
    {resting : Bool} {saveTrans : List String} {i : ℕ} {dt timeEnd : F}
    {emitFuel : ℕ} (hndt : trs.keys.Nodup)
    (hrate : ∀ p ∈ trs, 0 ≤ p.2.rateConstant.rate)
    (hstim : ∀ s : F, 0 ≤ stimF s) :
    ∀ (draws : List (F × F)) (st st' : LoopState F), st.pools.keys.Nodup →
      (∀ p ∈ st.pools, 0 ≤ p.2) →
      (∀ d ∈ draws, 0 ≤ d.2 ∧ d.2 < 1) →
      gillespieLoop trs stimF resting saveTrans i dt timeEnd emitFuel draws st
        = .ok st' →
      (∀ p ∈ st'.pools, 0 ≤ p.2) ∧
      ∀ r ∈ st'.rows, r ∈ st.rows ∨ ∀ p ∈ r.state, 0 ≤ p.2 := by
  intro draws
  induction draws with
  | nil =>
    intro st st' hnd hpos _ h
    rw [gillespieLoop] at h
    injection h with h
    subst h
    exact ⟨hpos, fun r hr => Or.inl hr⟩
  | cons d rest ih =>
    intro st st' hnd hpos hdraws h
    rw [gillespieLoop] at h
    by_cases hc : st.tsave ≤ timeEnd
    · rw [if_pos hc] at h
      cases hit : gillespieIter trs stimF resting saveTrans i dt timeEnd
        emitFuel d st with
      | error e => rw [hit] at h; exact absurd h (by simp)
      | ok st1 =>
        rw [hit] at h
        obtain ⟨_, hk1, nr, hrows, hnr⟩ := gillespieIter_facts hnd hit
        have hnd1 : st1.pools.keys.Nodup := hk1 ▸ hnd
        have hpos1 : ∀ p ∈ st1.pools, 0 ≤ p.2 :=
          gillespieIter_nonneg hnd hndt hrate hstim
            (hdraws d (List.mem_cons_self d rest)) hpos hit
        obtain ⟨hpo, hro⟩ := ih st1 st' hnd1 hpos1
          (fun d' hd' => hdraws d' (List.mem_cons_of_mem d hd')) h
        refine ⟨hpo, ?_⟩
        intro r hr
        rcases hro r hr with hin | hnn
        · rw [hrows] at hin
          rcases List.mem_append.mp hin with h1 | h2
          · exact Or.inl h1
          · refine Or.inr ?_
            rw [hnr r h2]
            exact hpos
        · exact Or.inr hnn
    · rw [if_neg hc] at h
      injection h with h
      subst h
      exact ⟨hpos, fun r hr => Or.inl hr⟩

/-- The repetition loop conserves the total count across repetitions,
snapshots included. -/
theorem gillespieRun_conserve {trs : PyDict (Transition F)}
    {restingD : PyDict ℤ} {stimF : F → F} {resting : Bool}
    {saveTrans : List String} {dt timeEnd : F} {emitFuel : ℕ}
    {K : List String} {V : ℤ}
    (hsum1 : ∀ q P1 : PyDict ℤ, PyDict.keys q = K →
      KineticModel.setCounts restingD q = .ok P1 → sumCounts P1 = V) :
    ∀ (dss : List (List (F × F))) (i : ℕ) (pools : PyDict ℤ)
      (out : PyDict ℤ × List (SimRow F)),
      PyDict.keys pools = K → pools.keys.Nodup → sumCounts pools = V →
      gillespieRun trs restingD stimF resting saveTrans dt timeEnd emitFuel
        dss i pools = .ok out →
      sumCounts out.1 = V ∧ PyDict.keys out.1 = K ∧
        ∀ r ∈ out.2, sumCounts r.state = V := by
  intro dss
  induction dss with
  | nil =>
    intro i pools out hK hnd hV h
    rw [gillespieRun] at h
    injection h with h
    subst h
    exact ⟨hV, hK, fun r hr => absurd hr (List.not_mem_nil r)⟩
  | cons ds rest ih =>
    intro i pools out hK hnd hV h
    rw [gillespieRun] at h
    cases hset : KineticModel.setCounts restingD pools with
    | error e => rw [hset] at h; exact absurd h (by simp)
    | ok P1 =>
      rw [hset] at h
      dsimp only at h
      have hKP1 : PyDict.keys P1 = K := (setCounts_keys hset).trans hK
      have hndP1 : P1.keys.Nodup := by
        rw [hKP1, ← hK]
        exact hnd
      have hVP1 : sumCounts P1 = V := hsum1 pools P1 hK hset
      cases hloop : gillespieLoop trs stimF resting saveTrans i dt timeEnd
        emitFuel ds ⟨P1, 0, 0, zeroTally saveTrans, []⟩ with
      | error e => rw [hloop] at h; exact absurd h (by simp)
      | ok st =>
        rw [hloop] at h
        dsimp only at h
        obtain ⟨hs, hk, hrws⟩ := gillespieLoop_conserve ds _ st hndP1 hloop
        cases hrec : gillespieRun trs restingD stimF resting saveTrans dt
          timeEnd emitFuel rest (i + 1) st.pools with
        | error e => rw [hrec] at h; exact absurd h (by simp)
        | ok res =>
          rw [hrec] at h
          dsimp only at h
          injection h with h
          subst h
          obtain ⟨hs', hk', hr'⟩ := ih (i + 1) st.pools res
            (by rw [hk]; exact hKP1) (by rw [hk]; exact hndP1)
            (by rw [hs]; exact hVP1) hrec
          refine ⟨hs', hk', ?_⟩
          intro r hr
          rcases List.mem_append.mp hr with h1 | h2
          · rcases hrws r h1 with hin | hsum
            · exact absurd hin (List.not_mem_nil r)
            · rw [hsum]
              exact hVP1
          · exact hr' r h2

/-- The repetition loop keeps every count non-negative across
repetitions, snapshots included. -/
theorem gillespieRun_nonneg {trs : PyDict (Transition F)}
    {restingD : PyDict ℤ} {stimF : F → F} {resting : Bool}
    {saveTrans : List String} {dt timeEnd : F} {emitFuel : ℕ}
    (hndt : trs.keys.Nodup)
    (hrate : ∀ p ∈ trs, 0 ≤ p.2.rateConstant.rate)
    (hstim : ∀ s : F, 0 ≤ stimF s)
    (hrD : ∀ p ∈ restingD, 0 ≤ p.2) :
    ∀ (dss : List (List (F × F))) (i : ℕ) (pools : PyDict ℤ)
      (out : PyDict ℤ × List (SimRow F)),
      pools.keys.Nodup → (∀ p ∈ pools, 0 ≤ p.2) →
      (∀ ds ∈ dss, ∀ d ∈ ds, 0 ≤ d.2 ∧ d.2 < 1) →
      gillespieRun trs restingD stimF resting saveTrans dt timeEnd emitFuel
        dss i pools = .ok out →
      (∀ p ∈ out.1, 0 ≤ p.2) ∧ ∀ r ∈ out.2, ∀ p ∈ r.state, 0 ≤ p.2 := by
  intro dss
  induction dss with
  | nil =>
    intro i pools out hnd hpos _ h
    rw [gillespieRun] at h
    injection h with h
    subst h
    exact ⟨hpos, fun r hr => absurd hr (List.not_mem_nil r)⟩
  | cons ds rest ih =>
    intro i pools out hnd hpos hdss h
    rw [gillespieRun] at h
    cases hset : KineticModel.setCounts restingD pools with
    | error e => rw [hset] at h; exact absurd h (by simp)
    | ok P1 =>
      rw [hset] at h
      dsimp only at h
      have hndP1 : P1.keys.Nodup := by
        rw [setCounts_keys hset]
        exact hnd
      have hposP1 : ∀ p ∈ P1, 0 ≤ p.2 := by
        intro p hp
        revert hp
        -- every value of `P1` comes from the resting mapping
        have hall : ∀ {l P : List (String × ℤ)},
            KineticModel.setCounts restingD l = .ok P →
            ∀ p ∈ P, 0 ≤ p.2 := by
          intro l
          induction l with
          | nil =>
            intro P hP p hp
            rw [KineticModel.setCounts] at hP
            injection hP with hP
            subst hP
            exact absurd hp (List.not_mem_nil p)
          | cons q restl ihl =>
            intro P hP p hp
            obtain ⟨n, c⟩ := q
            rw [KineticModel.setCounts] at hP
            cases hlkd : restingD.lookup n with
            | none => rw [hlkd] at hP; exact absurd hP (by simp)
            | some v =>
              rw [hlkd] at hP
              cases hres : KineticModel.setCounts restingD restl with
              | error e => rw [hres] at hP; exact absurd hP (by simp)
              | ok P' =>
                rw [hres] at hP
                injection hP with hP
                subst hP
                rcases List.mem_cons.mp hp with he | hm
                · subst he
                  exact hrD (n, v) (mem_of_lookup hlkd)
                · exact ihl hres p hm
        exact fun hp => hall hset p hp
      cases hloop : gillespieLoop trs stimF resting saveTrans i dt timeEnd
        emitFuel ds ⟨P1, 0, 0, zeroTally saveTrans, []⟩ with
      | error e => rw [hloop] at h; exact absurd h (by simp)
      | ok st =>
        rw [hloop] at h
        dsimp only at h
        obtain ⟨_, hk, _⟩ := gillespieLoop_conserve ds _ st hndP1 hloop
        obtain ⟨hpo, hro⟩ := gillespieLoop_nonneg hndt hrate hstim ds _ st
          hndP1 hposP1 (hdss ds (List.mem_cons_self ds rest)) hloop
        cases hrec : gillespieRun trs restingD stimF resting saveTrans dt
          timeEnd emitFuel rest (i + 1) st.pools with
        | error e => rw [hrec] at h; exact absurd h (by simp)
        | ok res =>
          rw [hrec] at h
          dsimp only at h
          injection h with h
          subst h
          obtain ⟨hpo', hro'⟩ := ih (i + 1) st.pools res
            (by rw [hk]; exact hndP1) hpo
            (fun ds' hds' => hdss ds' (List.mem_cons_of_mem ds hds')) hrec
          refine ⟨hpo', ?_⟩
          intro r hr
          rcases List.mem_append.mp hr with h1 | h2
          · rcases hro r h1 with hin | hnn
            · exact absurd hin (List.not_mem_nil r)
            · exact hnn
          · exact hro' r h2

/-- The transition chosen by the scan and then looked up in the registry
has an origin pool holding at least one vesicle: with non-negative rates
and counts, a zero-count origin gives a zero propensity, which the scan
never selects. -/
theorem selected_origin_pos {trs : PyDict (Transition F)} {stimval : F}
    {resting : Bool} {pools : PyDict ℤ} {a : List (String × F)} {u : F}
    {name : String} {tr : Transition F} {c : ℤ}
    (hndt : trs.keys.Nodup)
    (hrate : ∀ p ∈ trs, 0 ≤ p.2.rateConstant.rate) (hstim : 0 ≤ stimval)
    (hpos : ∀ p ∈ pools, 0 ≤ p.2)
    (hprop : propensityList stimval resting pools trs = .ok a)
    (ha0 : (a.map Prod.snd).sum ≠ 0) (hu0 : 0 ≤ u) (hu1 : u < 1)
    (hsel : selectLoop (u * (a.map Prod.snd).sum) 0 a = some name)
    (hlk : trs.lookup name = some tr)
    (hlkc : pools.lookup tr.origin = some c) : 1 ≤ c := by
  have hannn : ∀ q ∈ a, 0 ≤ q.2 :=
    propensityList_nonneg hprop hrate hstim hpos
  have ha0nn : 0 ≤ (a.map Prod.snd).sum :=
    List.sum_nonneg fun v hv => by
      obtain ⟨q, hq, rfl⟩ := List.mem_map.mp hv
      exact hannn q hq
  have ha0pos : 0 < (a.map Prod.snd).sum := lt_of_le_of_ne ha0nn (Ne.symm ha0)
  have hne : a ≠ [] := by
    intro hnil
    subst hnil
    simp at ha0
  have hw0 : 0 ≤ u * (a.map Prod.snd).sum := mul_nonneg hu0 (le_of_lt ha0pos)
  have hww : u * (a.map Prod.snd).sum < (a.map Prod.snd).sum := by
    calc u * (a.map Prod.snd).sum < 1 * (a.map Prod.snd).sum :=
          mul_lt_mul_of_pos_right hu1 ha0pos
      _ = (a.map Prod.snd).sum := one_mul _
  obtain ⟨j, hj, hjname, hjpos⟩ := selectLoop_sel_pos hannn hne hw0 hww hsel
  obtain ⟨tr', hmem, c', hlkc', hval⟩ :=
    propensityList_mem hprop (a.get ⟨j, hj⟩) (List.get_mem a j hj)
  have htr' : tr' = tr := by
    have h1 : trs.lookup name = some tr' := by
      rw [← hjname]
      exact lookup_of_mem_nodup hndt hmem
    have h2 := h1.symm.trans hlk
    injection h2
  rw [htr'] at hlkc' hval
  have hcc : c' = c := by
    have h3 := hlkc'.symm.trans hlkc
    injection h3
  subst hcc
  have hcpos : (0 : F) < (c' : F) := by
    by_contra hle
    push_neg at hle
    have hrr : 0 ≤ tr.rateConstant.rate +
        (if tr.rateConstant.calciumDependent ∧ ¬resting
          then stimval else 0) := by
      have hrt := hrate (name, tr) (mem_of_lookup hlk)
      by_cases hcal : tr.rateConstant.calciumDependent ∧ ¬resting
      · rw [if_pos hcal]; linarith
      · rw [if_neg hcal]; linarith
    rw [hval] at hjpos
    nlinarith
  exact Int.cast_pos.mp hcpos

end Solver

/-- C1: starting each trajectory from a conserving state (the recorded
resting state restores a mapping whose counts sum to `total_quantity`,
and the live pools sum to it as well), every Gillespie step moves one
vesicle from the selected transition's origin pool to its destination
pool, so after `Solver.run`'s `__gillespie` — for any number of
repetitions, any `time_end`, any `time_save`, any random draws, and at
every emitted snapshot — the pool counts sum exactly to the conserved
total `V`. -/
theorem gillespie_run_conserves_total {F : Type} [LinearOrderedField F]
    (m : KineticModel F) (P1 : PyDict ℤ) (V : ℤ) (stimF : F → F)
    (timeEnd dt : F) (method : String) (saveTrans : List String)
    (dss : List (List (F × F))) (emitFuel : ℕ)
    (out : KineticModel F × List (Solver.SimRow F))
    (hnd : m.transitionStates.keys.Nodup)
    (hset : KineticModel.setCounts m.restingState m.transitionStates =
      .ok P1)
    (hV1 : sumCounts P1 = V) (hV0 : sumCounts m.transitionStates = V)
    (hrun : Solver.run m stimF timeEnd dt method saveTrans dss emitFuel =
      .ok out) :
    sumCounts out.1.transitionStates = V ∧
      ∀ r ∈ out.2, sumCounts r.state = V := by
  have hsum1 : ∀ q Q1 : PyDict ℤ,
      PyDict.keys q = PyDict.keys m.transitionStates →
      KineticModel.setCounts m.restingState q = .ok Q1 →
      sumCounts Q1 = V := by
    intro q Q1 hkq hq
    rw [setCounts_congr hkq, hset] at hq
    injection hq with hq
    rw [← hq]
    exact hV1
  rw [Solver.run] at hrun
  by_cases hflag : ¬ truthy m.initRestingFlag
  · rw [if_pos hflag] at hrun
    exact absurd hrun (by simp)
  · rw [if_neg hflag] at hrun
    by_cases hall : saveTrans.all
        (fun e => decide (e ∈ m.transitions.keys)) = true
    · rw [if_pos hall] at hrun
      by_cases hme : method = "gillespie"
      · rw [if_pos hme] at hrun
        cases hg : Solver.gillespieRun m.transitions m.restingState stimF
          false saveTrans dt timeEnd emitFuel dss 0 m.transitionStates with
        | error e => rw [hg] at hrun; exact absurd hrun (by simp)
        | ok res =>
          rw [hg] at hrun
          dsimp only at hrun
          injection hrun with hrun
          subst hrun
          obtain ⟨h1, _, h3⟩ := Solver.gillespieRun_conserve hsum1 dss 0
            m.transitionStates res rfl hnd hV0 hg
          exact ⟨h1, h3⟩
      · rw [if_neg hme] at hrun
        exact absurd hrun (by simp)
    · rw [if_neg hall] at hrun
      exact absurd hrun (by simp)

/-- C1 witness: the two-pool test model (100 vesicles), one repetition of
`run` — the resting-state mapping is copied into the pools, and the
final pool counts sum to 100. -/
theorem gillespie_run_conserves_total_witness :
    sumCounts
      ((⟨(⟨100, [("D", 98), ("F", 2)],
          [("t1", ⟨"D", "F", ⟨1, true⟩⟩), ("t2", ⟨"F", "D", ⟨15, false⟩⟩)],
          [("D", 98), ("F", 2)], some true, some true⟩ : KineticModel ℚ),
        ([] : List (Solver.SimRow ℚ))⟩ :
        KineticModel ℚ × List (Solver.SimRow ℚ))).1.transitionStates = 100 ∧
    ∀ r ∈ ((⟨(⟨100, [("D", 98), ("F", 2)],
          [("t1", ⟨"D", "F", ⟨1, true⟩⟩), ("t2", ⟨"F", "D", ⟨15, false⟩⟩)],
          [("D", 98), ("F", 2)], some true, some true⟩ : KineticModel ℚ),
        ([] : List (Solver.SimRow ℚ))⟩ :
        KineticModel ℚ × List (Solver.SimRow ℚ))).2,
      sumCounts r.state = 100 := by
  refine gillespie_run_conserves_total
    (⟨100, [("D", 100), ("F", 0)],
      [("t1", ⟨"D", "F", ⟨1, true⟩⟩), ("t2", ⟨"F", "D", ⟨15, false⟩⟩)],
      [("D", 98), ("F", 2)], some true, some true⟩ : KineticModel ℚ)
    [("D", 98), ("F", 2)] 100 (fun _ => 0) 1 1 "gillespie" [] [[]] 5
    ⟨⟨100, [("D", 98), ("F", 2)],
      [("t1", ⟨"D", "F", ⟨1, true⟩⟩), ("t2", ⟨"F", "D", ⟨15, false⟩⟩)],
      [("D", 98), ("F", 2)], some true, some true⟩, []⟩
    (by decide) rfl (by simp [sumCounts, PyDict.keys]) ?_ rfl
  simp [sumCounts, PyDict.keys]

/-- C5: along any completed run started from non-negative pool counts
(with non-negative rates, stimulation values and resting-state mapping),
every pool count stays non-negative, at the end and at every emitted
snapshot; and the mechanism: the scan of `Solver.__gillespie` never
selects a zero-propensity transition, so the transition whose origin
`pop_vesicle` is applied to always has an origin count of at least 1. -/
theorem gillespie_run_nonneg_counts {F : Type} [LinearOrderedField F]
    (trs : PyDict (Transition F)) (restingD P0 : PyDict ℤ) (stimF : F → F)
    (resting : Bool) (saveTrans : List String) (dt timeEnd : F)
    (emitFuel : ℕ) (dss : List (List (F × F))) (i0 : ℕ)
    (out : PyDict ℤ × List (Solver.SimRow F))
    (hnd : P0.keys.Nodup) (hndt : trs.keys.Nodup)
    (hrate : ∀ p ∈ trs, 0 ≤ p.2.rateConstant.rate)
    (hstim : ∀ s : F, 0 ≤ stimF s)
    (hrD : ∀ p ∈ restingD, 0 ≤ p.2)
    (hpos0 : ∀ p ∈ P0, 0 ≤ p.2)
    (hdss : ∀ ds ∈ dss, ∀ d ∈ ds, 0 ≤ d.2 ∧ d.2 < 1)
    (hrun : Solver.gillespieRun trs restingD stimF resting saveTrans dt
      timeEnd emitFuel dss i0 P0 = .ok out) :
    ((∀ p ∈ out.1, 0 ≤ p.2) ∧ ∀ r ∈ out.2, ∀ p ∈ r.state, 0 ≤ p.2) ∧
    (∀ (pools : PyDict ℤ) (a : List (String × F)) (sv u : F)
      (name : String) (tr : Transition F) (c : ℤ),
      pools.keys.Nodup → (∀ p ∈ pools, 0 ≤ p.2) → 0 ≤ sv →
      Solver.propensityList sv resting pools trs = .ok a →
      (a.map Prod.snd).sum ≠ 0 → 0 ≤ u → u < 1 →
      Solver.selectLoop (u * (a.map Prod.snd).sum) 0 a = some name →
      trs.lookup name = some tr → pools.lookup tr.origin = some c →
      1 ≤ c) := by
  constructor
  · exact Solver.gillespieRun_nonneg hndt hrate hstim hrD dss i0 P0 out hnd
      hpos0 hdss hrun
  · intro pools a sv u name tr c _ hpos hsv hprop ha0 hu0 hu1 hsel hlk hlkc
    exact Solver.selected_origin_pos hndt hrate hsv hpos hprop ha0 hu0 hu1
      hsel hlk hlkc

/-- C5 witness: one repetition of the two-pool model keeps all counts
non-negative, and the selection-mechanism conjunct is instantiated at the
concrete transition registry. -/
theorem gillespie_run_nonneg_counts_witness :
    ((∀ p ∈ (([("D", 98), ("F", 2)], ([] : List (Solver.SimRow ℚ))) :
        PyDict ℤ × List (Solver.SimRow ℚ)).1, 0 ≤ p.2) ∧
      ∀ r ∈ (([("D", 98), ("F", 2)], ([] : List (Solver.SimRow ℚ))) :
        PyDict ℤ × List (Solver.SimRow ℚ)).2, ∀ p ∈ r.state, 0 ≤ p.2) ∧
    (∀ (pools : PyDict ℤ) (a : List (String × ℚ)) (sv u : ℚ)
      (name : String) (tr : Transition ℚ) (c : ℤ),
      pools.keys.Nodup → (∀ p ∈ pools, 0 ≤ p.2) → 0 ≤ sv →
      Solver.propensityList sv false pools
        [("t1", ⟨"D", "F", ⟨1, true⟩⟩),
          ("t2", ⟨"F", "D", ⟨15, false⟩⟩)] = .ok a →
      (a.map Prod.snd).sum ≠ 0 → 0 ≤ u → u < 1 →
      Solver.selectLoop (u * (a.map Prod.snd).sum) 0 a = some name →
      PyDict.lookup name [("t1", (⟨"D", "F", ⟨1, true⟩⟩ : Transition ℚ)),
        ("t2", ⟨"F", "D", ⟨15, false⟩⟩)] = some tr →
      pools.lookup tr.origin = some c → 1 ≤ c) := by
  refine gillespie_run_nonneg_counts
    [("t1", ⟨"D", "F", ⟨1, true⟩⟩), ("t2", ⟨"F", "D", ⟨15, false⟩⟩)]
    [("D", 98), ("F", 2)] [("D", 100), ("F", 0)] (fun _ => 0) false [] 1 1 5
    [[]] 0 ([("D", 98), ("F", 2)], [])
    (by decide) (by decide) ?_ (fun s => le_refl 0) (by decide)
    (by decide) (by simp) rfl
  intro p hp
  rcases List.mem_cons.mp hp with he | hp
  · rw [he]
    exact zero_le_one
  · rcases List.mem_cons.mp hp with he | hp
    · rw [he]
      simp
    · exact absurd hp (List.not_mem_nil p)

/-- C4: with non-negative propensities `a_i`, total `a0 > 0` and a draw
`u2 ∈ [0, a0)`, the event-selection scan of `Solver.__gillespie`
(solver.py:338-346) returns exactly one transition — the first in
declaration order whose cumulative propensity strictly exceeds `u2` —
that transition has strictly positive propensity (so a zero-propensity
transition is never selected), and for each transition `i` the set of
draws selecting it is the interval
`[Σ_{j<i} a_j, Σ_{j≤i} a_j)`, of Lebesgue measure exactly `a_i`. -/
theorem gillespie_event_selection (a : List (String × ℝ)) (u2 : ℝ)
    (hnn : ∀ p ∈ a, 0 ≤ p.2) (hnodup : (a.map Prod.fst).Nodup)
    (h0 : 0 ≤ u2) (hu : u2 < (a.map Prod.snd).sum) :
    (∃ (i : ℕ) (h : i < a.length),
      Solver.selectLoop u2 0 a = some (a.get ⟨i, h⟩).1 ∧
      u2 < ((a.map Prod.snd).take (i + 1)).sum ∧
      (∀ j < i, ((a.map Prod.snd).take (j + 1)).sum ≤ u2) ∧
      0 < (a.get ⟨i, h⟩).2) ∧
    (∀ (i : ℕ) (h : i < a.length),
      {u : ℝ | (0 ≤ u ∧ u < (a.map Prod.snd).sum) ∧
          Solver.selectLoop u 0 a = some (a.get ⟨i, h⟩).1} =
        Set.Ico (((a.map Prod.snd).take i).sum)
          (((a.map Prod.snd).take (i + 1)).sum) ∧
      MeasureTheory.volume
        (Set.Ico (((a.map Prod.snd).take i).sum)
          (((a.map Prod.snd).take (i + 1)).sum)) =
        ENNReal.ofReal (a.get ⟨i, h⟩).2) := by
  have hne : a ≠ [] := by
    intro hnil
    subst hnil
    simp only [List.map_nil, List.sum_nil] at hu
    linarith
  have hnnv : ∀ v ∈ a.map Prod.snd, 0 ≤ v := by
    intro v hv
    obtain ⟨r, hr, rfl⟩ := List.mem_map.mp hv
    exact hnn r hr
  constructor
  · obtain ⟨i, h, hsel, hub, hlb⟩ :=
      Solver.selectLoop_break a u2 0 hne hnn (by simpa using hu)
    simp only [zero_add] at hub hlb
    have hci : ((a.map Prod.snd).take i).sum ≤ u2 := by
      cases i with
      | zero => simpa using h0
      | succ j => exact hlb j (Nat.lt_succ_self j)
    have hsum := Solver.take_sum_succ_pair a i h
    exact ⟨i, h, hsel, hub, hlb, by linarith [hub, hci, hsum]⟩
  · intro i h
    have hsum := Solver.take_sum_succ_pair a i h
    constructor
    · ext u
      simp only [Set.mem_setOf_eq, Set.mem_Ico]
      constructor
      · rintro ⟨⟨hu0, hutot⟩, husel⟩
        obtain ⟨i', h', hsel', hub', hlb'⟩ :=
          Solver.selectLoop_break a u 0 hne hnn (by simpa using hutot)
        simp only [zero_add] at hub' hlb'
        have hname : (a.get ⟨i', h'⟩).1 = (a.get ⟨i, h⟩).1 :=
          Option.some.inj (hsel'.symm.trans husel)
        have hidx : i' = i := by
          have hfin : (⟨i', by simpa using h'⟩ : Fin (a.map Prod.fst).length)
              = ⟨i, by simpa using h⟩ := by
            refine hnodup.get_inj_iff.mp ?_
            rw [Solver.get_fst_eq_map_get a i' h',
              Solver.get_fst_eq_map_get a i h]
            exact hname
          simpa using congrArg Fin.val hfin
        subst hidx
        refine ⟨?_, hub'⟩
        cases i' with
        | zero => simpa using hu0
        | succ j => exact hlb' j (Nat.lt_succ_self j)
      · rintro ⟨hlo, hhi⟩
        have hc0 : 0 ≤ ((a.map Prod.snd).take i).sum :=
          Solver.take_sum_nonneg hnnv i
        have hctot : ((a.map Prod.snd).take (i + 1)).sum ≤
            (a.map Prod.snd).sum := by
          have hdrop : 0 ≤ ((a.map Prod.snd).drop (i + 1)).sum :=
            List.sum_nonneg fun v hv => hnnv v (List.mem_of_mem_drop hv)
          have := List.sum_take_add_sum_drop (a.map Prod.snd) (i + 1)
          linarith
        refine ⟨⟨by linarith, by linarith⟩, ?_⟩
        exact Solver.selectLoop_of_between a u 0 i h hnn (by simpa using hlo)
          (by simpa using hhi)
    · rw [Real.volume_Ico]
      congr 1
      linarith

/-- C4 witness: two transitions with propensities `1` and `2`; the draw
`3/2` exceeds the first cumulative sum `1` and selects the second. -/
theorem gillespie_event_selection_witness :
    (∃ (i : ℕ) (h : i < ([("A", 1), ("B", 2)] : List (String × ℝ)).length),
      Solver.selectLoop ((3 : ℝ) / 2) 0 [("A", 1), ("B", 2)] =
        some (([("A", 1), ("B", 2)] : List (String × ℝ)).get ⟨i, h⟩).1 ∧
      (3 / 2 : ℝ) <
        ((([("A", 1), ("B", 2)] : List (String × ℝ)).map Prod.snd).take
          (i + 1)).sum ∧
      (∀ j < i,
        ((([("A", 1), ("B", 2)] : List (String × ℝ)).map Prod.snd).take
          (j + 1)).sum ≤ 3 / 2) ∧
      0 < (([("A", 1), ("B", 2)] : List (String × ℝ)).get ⟨i, h⟩).2) ∧
    (∀ (i : ℕ) (h : i < ([("A", 1), ("B", 2)] : List (String × ℝ)).length),
      {u : ℝ | (0 ≤ u ∧
          u < (([("A", 1), ("B", 2)] : List (String × ℝ)).map Prod.snd).sum) ∧
          Solver.selectLoop u 0 [("A", 1), ("B", 2)] =
            some (([("A", 1), ("B", 2)] : List (String × ℝ)).get ⟨i, h⟩).1} =
        Set.Ico
          (((([("A", 1), ("B", 2)] : List (String × ℝ)).map Prod.snd).take
            i).sum)
          (((([("A", 1), ("B", 2)] : List (String × ℝ)).map Prod.snd).take
            (i + 1)).sum) ∧
      MeasureTheory.volume
        (Set.Ico
          (((([("A", 1), ("B", 2)] : List (String × ℝ)).map Prod.snd).take
            i).sum)
          (((([("A", 1), ("B", 2)] : List (String × ℝ)).map Prod.snd).take
            (i + 1)).sum)) =
        ENNReal.ofReal (([("A", 1), ("B", 2)] : List (String × ℝ)).get
          ⟨i, h⟩).2) := by
  refine gillespie_event_selection [("A", 1), ("B", 2)] ((3 : ℝ) / 2) ?_ ?_ ?_ ?_
  · intro p hp
    rcases List.mem_cons.mp hp with rfl | hp
    · norm_num
    · rcases List.mem_cons.mp hp with rfl | hp
      · norm_num
      · exact absurd hp (List.not_mem_nil p)
  · decide
  · norm_num
  · norm_num

/-- C6 counterexample: the construction of the claim — intensity `100`,
one conditioning pulse, `τ = 0.05`, start time `0.1`, `pulse_period`
omitted — raises `TypeError` at `Stimulation.__init__`
(stimulation.py:92 computes `(N - 1) * period` with `period = None`), so
`stimuli(0.1)` can never be evaluated on it. -/
theorem scenarioD_period_omitted_counterexample :
    Stimulation.init (some ((1 : ℝ) / 10)) (some 1) none (some (1 / 20))
      (some 100) none = .error .typeError := rfl

/-- C6 (amended): with `pulse_period` and `time_wait_test` additionally
supplied — any period `p > 0` and any wait `w` — the construction
succeeds and `stimuli` at `t = 0.1` evaluates the conditioning branch at
phase `0`, returning exactly `100.0`. -/
theorem scenarioD_instantaneous_rise (p w : ℝ) (hp : 0 < p) :
    Stimulation.init (some ((1 : ℝ) / 10)) (some 1) (some p) (some (1 / 20))
      (some 100) (some w) =
      .ok ⟨1 / 10, 1, p, some (1 / 20), some w, some 100,
        1 / 10 + (((1 : ℤ) : ℝ) - 1) * p + 1 / 200⟩ ∧
    Stimulation.stimuli Real.exp
      ⟨1 / 10, 1, p, some (1 / 20), some w, some 100,
        1 / 10 + (((1 : ℤ) : ℝ) - 1) * p + 1 / 200⟩ (1 / 10) = .ok 100 := by
  refine ⟨rfl, ?_⟩
  rw [Stimulation.stimuli, Stimulation.expDecay]
  dsimp only
  rw [if_pos (by norm_num : (1 : ℝ) / 10 ≤ 1 / 10 ∧
    (1 : ℝ) / 10 < 1 / 10 + (((1 : ℤ) : ℝ) - 1) * p + 1 / 200),
    if_neg (ne_of_gt hp), if_neg (by norm_num : ¬((1 : ℝ) / 20 = 0))]
  dsimp only
  rw [Stimulation.branchConditioning, pymod]
  norm_num [Real.exp_zero]

/-- C6 witness: period `1` and wait `0.2` supplied, the stimulus at
`t = 0.1` is exactly `100`. -/
theorem scenarioD_instantaneous_rise_witness :
    Stimulation.init (some ((1 : ℝ) / 10)) (some 1) (some 1) (some (1 / 20))
      (some 100) (some (1 / 5)) =
      .ok ⟨1 / 10, 1, 1, some (1 / 20), some (1 / 5), some 100,
        1 / 10 + (((1 : ℤ) : ℝ) - 1) * 1 + 1 / 200⟩ ∧
    Stimulation.stimuli Real.exp
      ⟨1 / 10, 1, 1, some (1 / 20), some (1 / 5), some 100,
        1 / 10 + (((1 : ℤ) : ℝ) - 1) * 1 + 1 / 200⟩ (1 / 10) = .ok 100 :=
  scenarioD_instantaneous_rise 1 (1 / 5) one_pos

/-- C8 counterexample: an `exponential_decay` stimulation with
`tau_stimulus = 0` is constructed without any error — no
`InvalidParameterError` exists in the code — and only evaluating
`stimuli` at `t = start_time` hits the division by zero. -/
theorem stim_tau_zero_accepted_counterexample :
    exceptOk (Stimulation.init (some (0 : ℝ)) (some 1) (some 1) (some 0)
      (some 100) (some 1)) = true ∧
    Stimulation.mkAndEval Real.exp (some (0 : ℝ)) (some 1) (some 1) (some 0)
      (some 100) (some 1) 0 = .error .zeroDivisionError := by
  refine ⟨rfl, ?_⟩
  rw [Stimulation.mkAndEval]
  dsimp only [Stimulation.init]
  rw [Stimulation.stimuli, Stimulation.expDecay]
  dsimp only
  rw [if_pos (by norm_num : (0 : ℝ) ≤ 0 ∧
    (0 : ℝ) < 0 + (((1 : ℤ) : ℝ) - 1) * 1 + 1 / 200),
    if_neg (by norm_num : ¬((1 : ℝ) = 0)), if_pos rfl]

/-- C8 (amended): `Stimulation.__init__` performs no validation of the
time constant: construction succeeds for every `tau`, non-positive ones
included, and with `tau = 0` the division by zero surfaces only when
`stimuli` is evaluated at a time `t ≥ start_time`, as a
`ZeroDivisionError`. -/
theorem stim_tau_not_validated (ts p I w : ℝ) (n : ℤ) (tau : Option ℝ)
    (hn : 1 ≤ n) (hp : 0 < p) :
    exceptOk (Stimulation.init (some ts) (some n) (some p) tau (some I)
      (some w)) = true ∧
    Stimulation.mkAndEval Real.exp (some ts) (some n) (some p) (some 0)
      (some I) (some w) ts = .error .zeroDivisionError := by
  refine ⟨rfl, ?_⟩
  rw [Stimulation.mkAndEval]
  dsimp only [Stimulation.init]
  rw [Stimulation.stimuli, Stimulation.expDecay]
  dsimp only
  have hcond : ts ≤ ts ∧ ts < ts + ((n : ℝ) - 1) * p + 1 / 200 := by
    have hcast : (1 : ℝ) ≤ (n : ℝ) := by exact_mod_cast hn
    have hmul : 0 ≤ ((n : ℝ) - 1) * p := mul_nonneg (by linarith) hp.le
    exact ⟨le_refl ts, by linarith⟩
  rw [if_pos hcond, if_neg (ne_of_gt hp), if_pos rfl]

/-- C8 witness: `tau = -1` is accepted at construction, and the `tau = 0`
evaluation at `t = start_time` raises `ZeroDivisionError`. -/
theorem stim_tau_not_validated_witness :
    exceptOk (Stimulation.init (some (0 : ℝ)) (some 1) (some 1) (some (-1))
      (some 1) (some 0)) = true ∧
    Stimulation.mkAndEval Real.exp (some (0 : ℝ)) (some 1) (some 1) (some 0)
      (some 1) (some 0) 0 = .error .zeroDivisionError :=
  stim_tau_not_validated 0 1 1 0 1 (some (-1)) (le_refl 1) one_pos

/-- C9 counterexample: at the test-pulse onset (start `0`, one pulse,
period `1`, `τ = 1`, wait `1`, intensity `1`, so `time_test = 1`), the
test branch exceeds the inter-phase branch by at least `1/2` — the
stimulation jumps (instantaneous test-pulse rise) instead of the
branches agreeing within floating tolerance. -/
theorem stim_test_onset_jump_counterexample :
    (1 : ℝ) * Stimulation.branchTest Real.exp 1 1 1 -
      1 * Stimulation.branchInterphase Real.exp 0 1 1 1 1 ≥ 1 / 2 := by
  have h1 : Stimulation.branchTest Real.exp (1 : ℝ) 1 1 = 1 := by
    rw [Stimulation.branchTest]
    norm_num [Real.exp_zero]
  have h2 : Stimulation.branchInterphase Real.exp (0 : ℝ) 1 1 1 1 =
      Real.exp (-1) := by
    rw [Stimulation.branchInterphase]
    norm_num
  rw [h1, h2]
  have h3 : Real.exp (-1) ≤ 1 / 2 := by
    rw [Real.exp_neg]
    have h4 : (2 : ℝ) ≤ Real.exp 1 := by
      have h5 := Real.add_one_le_exp (1 : ℝ)
      linarith
    calc (Real.exp 1)⁻¹ ≤ (2 : ℝ)⁻¹ := inv_anti₀ (by norm_num) h4
      _ = 1 / 2 := by norm_num
  linarith

/-- C9 (amended): the conditioning and inter-phase branch formulas of
`Stimulation.__exponential_decay` agree exactly at the
end-of-conditioning boundary `start + (N-1)·period + ε` whenever the
period exceeds `ε = 0.005`; at the test onset
`start + (N-1)·period + wait` the function is not continuous: the test
branch minus the inter-phase branch equals
`intensity · (1 - exp(-wait/τ))`, a genuine jump whenever `wait > 0`,
`τ > 0` and the intensity is non-zero. -/
theorem stim_boundary_behaviour (start p tau w I : ℝ) (n : ℤ) (_hn : 1 ≤ n)
    (hp : 1 / 200 < p) :
    Stimulation.branchConditioning Real.exp start p tau
        (start + ((n : ℝ) - 1) * p + 1 / 200) =
      Stimulation.branchInterphase Real.exp start n p tau
        (start + ((n : ℝ) - 1) * p + 1 / 200) ∧
    I * Stimulation.branchTest Real.exp (start + ((n : ℝ) - 1) * p + w) tau
        (start + ((n : ℝ) - 1) * p + w) -
      I * Stimulation.branchInterphase Real.exp start n p tau
        (start + ((n : ℝ) - 1) * p + w) =
      I * (1 - Real.exp (-w / tau)) := by
  have hp0 : (0 : ℝ) < p := lt_trans (by norm_num) hp
  constructor
  · rw [Stimulation.branchConditioning, Stimulation.branchInterphase]
    congr 1
    have hx : (start + ((n : ℝ) - 1) * p + 1 / 200) - start =
        ((n : ℝ) - 1) * p + 1 / 200 := by ring
    rw [hx, pymod]
    have hdiv : (((n : ℝ) - 1) * p + 1 / 200) / p =
        ((n - 1 : ℤ) : ℝ) + (1 / 200) / p := by
      push_cast
      field_simp
      ring
    have hfl0 : ⌊(1 / 200 : ℝ) / p⌋ = 0 := by
      rw [Int.floor_eq_zero_iff]
      constructor
      · positivity
      · exact (div_lt_one hp0).mpr hp
    rw [hdiv, Int.floor_int_add, hfl0, add_zero]
    push_cast
    ring
  · rw [Stimulation.branchTest, Stimulation.branchInterphase]
    have hA : -((start + ((n : ℝ) - 1) * p + w) -
        (start + ((n : ℝ) - 1) * p + w)) / tau = 0 := by ring
    have hB : -(((start + ((n : ℝ) - 1) * p + w) - start) -
        ((n : ℝ) - 1) * p) / tau = -w / tau := by ring
    rw [hA, hB, Real.exp_zero]
    ring

/-- C9 witness: concrete boundary agreement at the first boundary and the
exact jump `1 - exp(-1)` at the test onset. -/
theorem stim_boundary_behaviour_witness :
    Stimulation.branchConditioning Real.exp (0 : ℝ) 1 1
        (0 + (((1 : ℤ) : ℝ) - 1) * 1 + 1 / 200) =
      Stimulation.branchInterphase Real.exp 0 1 1 1
        (0 + (((1 : ℤ) : ℝ) - 1) * 1 + 1 / 200) ∧
    (1 : ℝ) * Stimulation.branchTest Real.exp
        (0 + (((1 : ℤ) : ℝ) - 1) * 1 + 1) 1 (0 + (((1 : ℤ) : ℝ) - 1) * 1 + 1)
      - 1 * Stimulation.branchInterphase Real.exp 0 1 1 1
        (0 + (((1 : ℤ) : ℝ) - 1) * 1 + 1) =
      1 * (1 - Real.exp (-1 / 1)) :=
  stim_boundary_behaviour 0 1 1 1 1 1 (le_refl 1) (by norm_num)

namespace Solver

variable {F : Type} [LinearOrderedField F]

/-- With the resting-state flag set, the stimulation value never enters a
propensity. -/
theorem propensityList_stim_congr {pools : PyDict ℤ} (sv sv' : F) :
    ∀ l : List (String × Transition F),
      propensityList sv true pools l = propensityList sv' true pools l := by
  intro l
  induction l with
  | nil => rfl
  | cons p rest ih =>
    obtain ⟨n, tr⟩ := p
    rw [propensityList, propensityList, ih]
    cases pools.lookup tr.origin with
    | none => rfl
    | some c =>
      cases propensityList sv' true pools rest with
      | error e => rfl
      | ok rest' =>
        have hc : ¬(tr.rateConstant.calciumDependent = true ∧
            ¬(true : Bool) = true) := by simp
        rw [if_neg hc, if_neg hc]

theorem gillespieIter_stim_congr {trs : PyDict (Transition F)}
    (stimF stimF' : F → F) {saveTrans : List String} {i : ℕ}
    {dt timeEnd : F} {emitFuel : ℕ} (d : F × F) (st : LoopState F) :
    gillespieIter trs stimF true saveTrans i dt timeEnd emitFuel d st =
      gillespieIter trs stimF' true saveTrans i dt timeEnd emitFuel d st := by
  rw [gillespieIter, gillespieIter,
    propensityList_stim_congr (stimF st.t) (stimF' st.t) trs]

theorem gillespieLoop_stim_congr {trs : PyDict (Transition F)}
    (stimF stimF' : F → F) {saveTrans : List String} {i : ℕ}
    {dt timeEnd : F} {emitFuel : ℕ} :
    ∀ (draws : List (F × F)) (st : LoopState F),
      gillespieLoop trs stimF true saveTrans i dt timeEnd emitFuel draws st =
        gillespieLoop trs stimF' true saveTrans i dt timeEnd emitFuel draws
          st := by
  intro draws
  induction draws with
  | nil => intro st; rfl
  | cons d rest ih =>
    intro st
    rw [gillespieLoop, gillespieLoop]
    by_cases hc : st.tsave ≤ timeEnd
    · rw [if_pos hc, if_pos hc, gillespieIter_stim_congr stimF stimF' d st]
      cases gillespieIter trs stimF' true saveTrans i dt timeEnd emitFuel d
        st with
      | error e => rfl
      | ok st1 => exact ih st1
    · rw [if_neg hc, if_neg hc]

theorem gillespieRun_stim_congr {trs : PyDict (Transition F)}
    {restingD : PyDict ℤ} (stimF stimF' : F → F) {saveTrans : List String}
    {dt timeEnd : F} {emitFuel : ℕ} :
    ∀ (dss : List (List (F × F))) (i : ℕ) (pools : PyDict ℤ),
      gillespieRun trs restingD stimF true saveTrans dt timeEnd emitFuel dss
        i pools =
      gillespieRun trs restingD stimF' true saveTrans dt timeEnd emitFuel dss
        i pools := by
  intro dss
  induction dss with
  | nil => intro i pools; rfl
  | cons ds rest ih =>
    intro i pools
    rw [gillespieRun, gillespieRun]
    cases KineticModel.setCounts restingD pools with
    | error e => rfl
    | ok P1 =>
      dsimp only
      rw [gillespieLoop_stim_congr stimF stimF' ds]
      cases gillespieLoop trs stimF' true saveTrans i dt timeEnd emitFuel ds
        ⟨P1, 0, 0, zeroTally saveTrans, []⟩ with
      | error e => rfl
      | ok st =>
        dsimp only
        rw [ih (i + 1) st.pools]

theorem restingLoop_stim_congr {trs : PyDict (Transition F)}
    {restingD : PyDict ℤ} (stimF stimF' : F → F) {dt timeEnd : F}
    {emitFuel : ℕ} {test : List (SimRow F) → Option (PyDict ℤ)} :
    ∀ (k : ℕ) (dss : List (List (F × F))) (pools : PyDict ℤ) (count : ℕ),
      restingLoop trs restingD stimF dt timeEnd emitFuel test k dss pools
        count =
      restingLoop trs restingD stimF' dt timeEnd emitFuel test k dss pools
        count := by
  intro k
  induction k with
  | zero => intro dss pools count; rfl
  | succ kk ih =>
    intro dss pools count
    rw [restingLoop, restingLoop, gillespieRun_stim_congr stimF stimF']
    cases gillespieRun trs restingD stimF' true [] dt timeEnd emitFuel
      [dss.headD []] 0 pools with
    | error e => rfl
    | ok res =>
      dsimp only
      cases test res.2 with
      | some s => rfl
      | none => rw [ih dss.tail res.1 (count + 1)]

/-- A normal (non-exception) return of the attempt loop happens exactly
when every attempt's convergence test failed: the trajectory count then
equals the number of attempts and the success flag is `False`. -/
theorem restingLoop_count {trs : PyDict (Transition F)}
    {restingD : PyDict ℤ} {stimF : F → F} {dt timeEnd : F} {emitFuel : ℕ}
    {test : List (SimRow F) → Option (PyDict ℤ)} :
    ∀ (k : ℕ) (dss : List (List (F × F))) (pools : PyDict ℤ) (count : ℕ)
      (out : PyDict ℤ × ℕ × Bool),
      restingLoop trs restingD stimF dt timeEnd emitFuel test k dss pools
        count = .ok out →
      out.2.1 = count + k ∧ out.2.2 = false := by
  intro k
  induction k with
  | zero =>
    intro dss pools count out h
    rw [restingLoop] at h
    injection h with h
    subst h
    exact ⟨(Nat.add_zero count).symm, rfl⟩
  | succ kk ih =>
    intro dss pools count out h
    rw [restingLoop] at h
    cases hrun : gillespieRun trs restingD stimF true [] dt timeEnd emitFuel
      [dss.headD []] 0 pools with
    | error e => rw [hrun] at h; exact absurd h (by simp)
    | ok res =>
      rw [hrun] at h
      dsimp only at h
      cases htest : test res.2 with
      | some s => rw [htest] at h; exact absurd h (by simp)
      | none =>
        rw [htest] at h
        obtain ⟨h1, h2⟩ := ih dss.tail res.1 (count + 1) out h
        exact ⟨by omega, h2⟩

end Solver

/-- C2 (code bug): `KineticModel.set_resting_state` (kinetic_model.py:245)
accepts no mapping — it snapshots the current live counts, touching
neither the live pools nor `_init_resting_state` — so the accepted
resting state cannot be stored through it and the model is never marked
resting-state-established; accordingly the success path of
`Solver.resting_state`, which calls the method with one positional
argument (solver.py:128), aborts with `TypeError`, contradicting
`tests/test_solver.py::test_resting_state`. -/
theorem setRestingState_arity_bug :
    (∀ m : KineticModel ℚ,
      (KineticModel.setRestingState m).restingState = m.currentState ∧
      (KineticModel.setRestingState m).transitionStates =
        m.transitionStates ∧
      (KineticModel.setRestingState m).initRestingFlag =
        m.initRestingFlag) ∧
    Solver.restingState
      ((((KineticModel.fresh ℚ 10).addTransitionStates [("A", 0)]
        ).addTransitions [("T", ⟨"A", "A", ⟨1, false⟩⟩)]).init)
      (fun _ => 0) 0 3 (fun _ => some [("A", 10)]) [[], [], []] =
      .error .typeError :=
  ⟨fun _ => ⟨rfl, rfl, rfl⟩, rfl⟩

/-- C7 counterexample: with a convergence test that never accepts, the
`Solver.resting_state` attempt loop simulates three trajectories — not
one — before returning normally with `success = False`. -/
theorem restingState_three_attempts_counterexample :
    (Solver.restingState
      ((((KineticModel.fresh ℚ 10).addTransitionStates [("A", 0)]
        ).addTransitions [("T", ⟨"A", "A", ⟨1, false⟩⟩)]).init)
      (fun _ => 0) 0 3 (fun _ => none) [[], [], []]).map
        (fun r => (r.2.1, r.2.2)) = .ok (3, false) ∧ (3 : ℕ) ≠ 1 :=
  ⟨rfl, by decide⟩

/-- C7 (amended): `Solver.resting_state` retries internally, up to three
trajectories of the SSA loop, each with the stimulation contribution
excluded from every propensity (the result does not depend on the
stimulation function at all); a normal return means every attempt's
convergence test failed, after exactly three simulated trajectories,
with the non-success reported as a printed message and no exception. -/
theorem restingState_retries_up_to_three {F : Type} [LinearOrderedField F]
    (m : KineticModel F) (stimF stimF' : F → F) (timeEnd : F)
    (emitFuel : ℕ) (test : List (Solver.SimRow F) → Option (PyDict ℤ))
    (dss : List (List (F × F))) :
    Solver.restingState m stimF timeEnd emitFuel test dss =
      Solver.restingState m stimF' timeEnd emitFuel test dss ∧
    ∀ out, Solver.restingState m stimF timeEnd emitFuel test dss = .ok out →
      out.2.1 = 3 ∧ out.2.2 = false := by
  constructor
  · rw [Solver.restingState, Solver.restingState]
    by_cases hI : ¬ truthy m.initFlag
    · rw [if_pos hI, if_pos hI]
    · rw [if_neg hI, if_neg hI,
        Solver.restingLoop_stim_congr stimF stimF' 3 dss m.transitionStates 0]
  · intro out h
    rw [Solver.restingState] at h
    by_cases hI : ¬ truthy m.initFlag
    · rw [if_pos hI] at h
      exact absurd h (by simp)
    · rw [if_neg hI] at h
      cases hloop : Solver.restingLoop m.transitions m.restingState stimF
        (1 / 100) timeEnd emitFuel test 3 dss m.transitionStates 0 with
      | error e => rw [hloop] at h; exact absurd h (by simp)
      | ok res =>
        rw [hloop] at h
        dsimp only at h
        injection h with h
        subst h
        exact Solver.restingLoop_count 3 dss m.transitionStates 0 res hloop

/-- C7 witness: on the concrete one-pool model the attempt loop gives the
same result under two different stimulation functions, and its normal
return carries three attempts and a `False` success flag. -/
theorem restingState_retries_up_to_three_witness :
    (Solver.restingState
      ((((KineticModel.fresh ℚ 10).addTransitionStates [("A", 0)]
        ).addTransitions [("T", ⟨"A", "A", ⟨1, false⟩⟩)]).init)
      (fun _ => 0) 0 3 (fun _ => none) [[], [], []] =
    Solver.restingState
      ((((KineticModel.fresh ℚ 10).addTransitionStates [("A", 0)]
        ).addTransitions [("T", ⟨"A", "A", ⟨1, false⟩⟩)]).init)
      (fun _ => 1) 0 3 (fun _ => none) [[], [], []]) ∧
    ((⟨⟨10, [("A", 10)], [("T", ⟨"A", "A", ⟨1, false⟩⟩)], [("A", 10)],
        some true, some false⟩, 3, false⟩ :
        KineticModel ℚ × ℕ × Bool).2.1 = 3 ∧
      (⟨⟨10, [("A", 10)], [("T", ⟨"A", "A", ⟨1, false⟩⟩)], [("A", 10)],
        some true, some false⟩, 3, false⟩ :
        KineticModel ℚ × ℕ × Bool).2.2 = false) := by
  constructor
  · exact (restingState_retries_up_to_three
      ((((KineticModel.fresh ℚ 10).addTransitionStates [("A", 0)]
        ).addTransitions [("T", ⟨"A", "A", ⟨1, false⟩⟩)]).init)
      (fun _ => 0) (fun _ => 1) 0 3 (fun _ => none) [[], [], []]).1
  · refine (restingState_retries_up_to_three
      ((((KineticModel.fresh ℚ 10).addTransitionStates [("A", 0)]
        ).addTransitions [("T", ⟨"A", "A", ⟨1, false⟩⟩)]).init)
      (fun _ => 0) (fun _ => 1) 0 3 (fun _ => none) [[], [], []]).2
      ⟨⟨10, [("A", 10)], [("T", ⟨"A", "A", ⟨1, false⟩⟩)], [("A", 10)],
        some true, some false⟩, 3, false⟩ rfl

/-- C3: each of the three precondition errors of `Solver.run` — resting
state not established, a monitored transition name that is not
registered, an unknown method string — makes `run` raise
(`AssertionError` or `ValueError`) before any simulation work: the error
is produced for every random stream alike, no `__gillespie` iteration
runs, and no pool count or stored resting state is touched. -/
theorem run_precondition_errors {F : Type} [LinearOrderedField F]
    (m : KineticModel F) (stimF : F → F) (timeEnd dt : F) (method : String)
    (saveTrans : List String) (emitFuel : ℕ) :
    (truthy m.initRestingFlag = false →
      ∀ dss, Solver.run m stimF timeEnd dt method saveTrans dss emitFuel =
        .error .assertionError) ∧
    (truthy m.initRestingFlag = true →
      (∃ e ∈ saveTrans, e ∉ m.transitions.keys) →
      ∀ dss, Solver.run m stimF timeEnd dt method saveTrans dss emitFuel =
        .error .valueError) ∧
    (truthy m.initRestingFlag = true →
      (∀ e ∈ saveTrans, e ∈ m.transitions.keys) → method ≠ "gillespie" →
      ∀ dss, Solver.run m stimF timeEnd dt method saveTrans dss emitFuel =
        .error .valueError) := by
  refine ⟨?_, ?_, ?_⟩
  · intro h dss
    rw [Solver.run, if_pos]
    simp [h]
  · intro h hbad dss
    obtain ⟨e, he, hnot⟩ := hbad
    rw [Solver.run, if_neg (by simp [h]), if_neg]
    rw [List.all_eq_true]
    push_neg
    exact ⟨e, he, by simpa using hnot⟩
  · intro h hgood hm dss
    rw [Solver.run, if_neg (by simp [h]), if_pos, if_neg hm]
    rw [List.all_eq_true]
    intro e he
    simpa using hgood e he

/-- C3 witness: a model without an established resting state fails the
assertion; with the flag set, an unregistered monitored name and an
unknown method each raise `ValueError`, regardless of the draws. -/
theorem run_precondition_errors_witness :
    Solver.run (KineticModel.fresh ℚ 5) (fun _ => 0) 1 1 "gillespie" [] [[]] 3
      = .error .assertionError ∧
    Solver.run (⟨5, [("A", 5)], [("T", ⟨"A", "A", ⟨1, false⟩⟩)], [("A", 5)],
        some true, some true⟩ : KineticModel ℚ) (fun _ => 0) 1 1 "gillespie"
      ["Nonexistent"] [[]] 3 = .error .valueError ∧
    Solver.run (⟨5, [("A", 5)], [("T", ⟨"A", "A", ⟨1, false⟩⟩)], [("A", 5)],
        some true, some true⟩ : KineticModel ℚ) (fun _ => 0) 1 1 "euler"
      [] [[]] 3 = .error .valueError := by
  refine ⟨?_, ?_, ?_⟩
  · exact (run_precondition_errors (KineticModel.fresh ℚ 5) (fun _ => 0) 1 1
      "gillespie" [] 3).1 rfl [[]]
  · exact (run_precondition_errors (⟨5, [("A", 5)],
      [("T", ⟨"A", "A", ⟨1, false⟩⟩)], [("A", 5)], some true, some true⟩ :
        KineticModel ℚ) (fun _ => 0) 1 1 "gillespie" ["Nonexistent"] 3).2.1
      rfl ⟨"Nonexistent", by decide, by decide⟩ [[]]
  · exact (run_precondition_errors (⟨5, [("A", 5)],
      [("T", ⟨"A", "A", ⟨1, false⟩⟩)], [("A", 5)], some true, some true⟩ :
        KineticModel ℚ) (fun _ => 0) 1 1 "euler" [] 3).2.2
      rfl (by decide) (by decide) [[]]

/-- C10: a second call to `add_transition_states` (or `add_transitions`)
replaces the whole registry with the dict built from the new list alone:
a name registered earlier but absent from the new list is no longer
present, and within one list a duplicated name keeps only its last
value. -/
theorem addRegistries_replace_wholesale :
    (∀ (m : KineticModel ℚ) (l₁ l₂ : List (String × ℤ)),
      ((m.addTransitionStates l₁).addTransitionStates l₂).transitionStates =
        dictItems l₂) ∧
    (∀ (m : KineticModel ℚ) (l₁ l₂ : List (String × Transition ℚ)),
      ((m.addTransitions l₁).addTransitions l₂).transitions = dictItems l₂) ∧
    (∀ (m : KineticModel ℚ) (l₁ l₂ : List (String × ℤ)) (k : String),
      k ∉ l₂.map Prod.fst →
      PyDict.lookup k
        (((m.addTransitionStates l₁).addTransitionStates l₂).transitionStates) =
        none) ∧
    (∀ (l : List (String × ℤ)) (k : String),
      k ∈ (dictItems l).keys ↔ k ∈ l.map Prod.fst) ∧
    (∀ (l : List (String × ℤ)) (k : String),
      PyDict.lookup k (dictItems l) = lastVal k l) := by
  refine ⟨fun m l₁ l₂ => rfl, fun m l₁ l₂ => rfl, ?_, mem_keys_dictItems,
    dictItems_lookup⟩
  intro m l₁ l₂ k hk
  rw [show ((m.addTransitionStates l₁).addTransitionStates l₂).transitionStates
      = dictItems l₂ from rfl, dictItems_lookup, lastVal_eq_none_of_not_mem hk]

/-- C10 witness: concrete registries — `"A"` from the first call is
discarded by the second call, and the duplicated `"B"` keeps its last
value. -/
theorem addRegistries_replace_wholesale_witness :
    PyDict.lookup "A"
      ((((KineticModel.fresh ℚ 5).addTransitionStates [("A", 3)]
        ).addTransitionStates [("B", 1), ("B", 2)]).transitionStates) = none ∧
    PyDict.lookup "B"
      ((((KineticModel.fresh ℚ 5).addTransitionStates [("A", 3)]
        ).addTransitionStates [("B", 1), ("B", 2)]).transitionStates) =
      some 2 := by
  constructor
  · exact addRegistries_replace_wholesale.2.2.1 (KineticModel.fresh ℚ 5)
      [("A", 3)] [("B", 1), ("B", 2)] "A" (by decide)
  · rw [show (((KineticModel.fresh ℚ 5).addTransitionStates [("A", 3)]
        ).addTransitionStates [("B", 1), ("B", 2)]).transitionStates =
        dictItems [("B", 1), ("B", 2)] from rfl]
    rw [addRegistries_replace_wholesale.2.2.2.2 [("B", 1), ("B", 2)] "B"]
    rfl

end KiNeuron
